import Mathlib

/-!
# The Go program generator `pkg/codegen/go/gen_program.go`

A shallow embedding of the generator that turns a linearised list of program
nodes (resources, output variables, local variables) into the text of a Go
`main` package.

* The output writer `w` is a `Buffer`: the list of the `Fprint`/`Fprintf`/`Fgenf`
  calls made on it, in order, each kept as its Go format string and arguments.
  `Buffer.text` is the text those calls write.
* A Go `panic` is the `Except.error` result.
* Code of the package that lives in other files (expression lowering, the
  expression printer, the package schema, ...) and Go's Unicode case tables are
  collected in `Externals`.
* The generator is its own expression printer, so writing a call with an expression
  argument may append to `g.diagnostics`; `printed` is the generator after a run of
  calls has been written.
-/

namespace Gen

/-! ## Data model -/

/-- One `hcl.Diagnostic`, kept as its summary. -/
abbrev Diagnostic := String

/-- The accumulating list `hcl.Diagnostics`. -/
abbrev Diagnostics := List Diagnostic

/-- A `model.Type`; the generator only hands types on to its collaborators. -/
structure ModelType where
  name : String
  deriving DecidableEq, Repr

/-- Modelled from the spec: `model.Expression`, declared in the `model` package, not in
this file.  The spec's data model lists literal, variable reference, object construction,
function call and conditional; the generator itself only tells function calls (by
`Name` and `Args`) from everything else. -/
inductive Expression where
  | literal (text : String)
  | scopeTraversal (rootName : String)
  | objectCons (items : List Expression)
  | functionCall (name : String) (args : List Expression)
  | conditional (condition trueResult falseResult : Expression)

/-- The fields of `*model.ConditionalExpression` read by `genTemps`, with the type its
`Type()` method reports. -/
structure ConditionalExpression where
  Condition : Expression
  TrueResult : Expression
  FalseResult : Expression
  typ : ModelType

/-- The fields of `*model.FunctionCallExpression` read by the generator. -/
structure FunctionCallExpression where
  Name : String
  Args : List Expression

/-- The `ternaryTemp` descriptor: a spilled conditional. -/
structure ternaryTemp where
  Name : String
  Value : ConditionalExpression

/-- The method `ternaryTemp.Type()`, the type of the spilled conditional. -/
def ternaryTemp.Type (t : ternaryTemp) : ModelType := t.Value.typ

/-- The `jsonTemp` descriptor: a spilled `toJSON` call. -/
structure jsonTemp where
  Name : String
  Value : FunctionCallExpression

/-- An element of the `[]interface{}` list returned by `lowerExpression`. -/
inductive Temp where
  | ternary (t : ternaryTemp)
  | json (t : jsonTemp)
  | other (description : String)

/-- A `*model.Attribute` of a resource: an input name and its value. -/
structure Attribute where
  Name : String
  Value : Expression

/-- A `*hcl2.Resource`.  `decomposed` is what `DecomposeToken()` returns for `Token`
(package, module, type name); the method is declared in package `hcl2`. -/
structure Resource where
  name : String
  Token : String
  decomposed : String × String × String
  Inputs : List Attribute
  InputType : ModelType

/-- A `*hcl2.OutputVariable`. -/
structure OutputVariable where
  name : String
  typ : ModelType
  Value : Expression

/-- A `*hcl2.LocalVariable`; `Value` is `Definition.Value`. -/
structure LocalVariable where
  name : String
  typ : ModelType
  Value : Expression

/-- A `hcl2.Node`.  `configVariable` stands for every node kind `genNode` has no case
for. -/
inductive Node where
  | resource (r : Resource)
  | outputVariable (v : OutputVariable)
  | localVariable (v : LocalVariable)
  | configVariable (name : String)

/-- A `semver.Version`; `Major` is a `uint64`, read modulo `2 ^ 64`. -/
structure Version where
  Major : Nat
  deriving DecidableEq, Repr

/-- A `*schema.Package` entry of `program.Packages()`; `Version` is a pointer and may
be nil. -/
structure Package where
  Name : String
  Version : Option Version
  deriving DecidableEq, Repr

/-- A `*hcl2.Program`: its nodes and the result of `Packages()`. -/
structure Program where
  Nodes : List Node
  Packages : List Package

/-- Modelled from the spec: the allocator of `jsonTemp` names (`jsonSpiller`, declared in
another file of the package): a counter scoped to the translation run. -/
structure jsonSpiller where
  count : Nat
  deriving DecidableEq, Repr

/-- Modelled from the spec: the allocator of `ternaryTemp` names (`tempSpiller`, declared
in another file of the package): a counter scoped to the translation run. -/
structure tempSpiller where
  count : Nat
  deriving DecidableEq, Repr

/-- The mutable fields of the `generator` struct. -/
structure generator where
  diagnostics : Diagnostics
  jsonTempSpiller : jsonSpiller
  ternaryTempSpiller : tempSpiller
  deriving DecidableEq, Repr

/-- The ways the generator can panic. -/
inductive Panic where
  | errorf (message : String)
  | indexOutOfRange
  | nilDereference
  | assertFailed
  deriving DecidableEq, Repr

/-- The collaborators of the generator that are defined outside this file. -/
structure Externals where
  /-- The text the formatter writes for an expression under `%.Nv` (`N` the precision). -/
  genExpression : Nat → Expression → String
  /-- The diagnostics the expression printer appends to `g.diagnostics` while it writes an
  expression under `%.Nv`: the generator is its own printer (`format.NewFormatter(g)`). -/
  genExpressionDiagnostics : Nat → Expression → Diagnostics
  /-- The method `g.lowerExpression(expr, typ, isInput)`: the rewritten expression, the
  temps to emit first, and the two temp-name allocators afterwards. -/
  lowerExpression : generator → Expression → ModelType → Bool →
    Expression × List Temp × jsonSpiller × tempSpiller
  /-- The helper `argumentTypeName(expr, typ, isInput)`. -/
  argumentTypeName : Expression → ModelType → Bool → String
  /-- The helper `stripInputs(expr)`. -/
  stripInputs : Expression → Expression
  /-- The call `typ.Traverse(hcl.TraverseAttr{Name: name})`. -/
  traverse : ModelType → String → ModelType × Diagnostics
  /-- The method `g.genFunctionPackages(call)`. -/
  genFunctionPackages : FunctionCallExpression → List String
  /-- The method `n.VisitExpressions`: the expressions handed to the post-visit callback,
  in order, and the diagnostics the traversal returns. -/
  visitExpressions : Node → List Expression × Diagnostics
  /-- The function `hcl2.Linearize(program)`. -/
  Linearize : Program → List Node
  /-- The function `gofmt.Source`: the formatted source, or nothing on an error. -/
  gofmtSource : String → Option String
  /-- The function `unicode.ToUpper` on the runes beyond ASCII (Go's case tables). -/
  unicodeToUpper : Char → Char
  /-- The function `unicode.ToTitle` on the runes beyond ASCII (Go's case tables). -/
  unicodeToTitle : Char → Char

/-! ## Formatted output -/

/-- An argument of a formatting call. -/
inductive Arg where
  | str (s : String)
  | int (i : Int)
  | expr (e : Expression)

/-- The text of one argument under a verb; `prec` is the precision of `%.Nv`, which only
the expression printer reads. -/
def argText (ge : Nat → Expression → String) (prec : Nat) : Option Arg → List Char
  | some (.str s) => s.data
  | some (.int i) => (toString i).data
  | some (.expr e) => (ge prec e).data
  | none => "%!(MISSING)".data

/-- The fragment of Go's `fmt` formatting used in this file: the verbs `%s`, `%d`,
`%[1]s`, `%.v` and `%.3v`; every other character is copied.  `k` is the index of the
next argument. -/
def sprintfGo (ge : Nat → Expression → String) (args : List Arg) : Nat → List Char → List Char
  | _, [] => []
  | k, '%' :: 's' :: r => argText ge 0 (args.get? k) ++ sprintfGo ge args (k + 1) r
  | k, '%' :: 'd' :: r => argText ge 0 (args.get? k) ++ sprintfGo ge args (k + 1) r
  | _, '%' :: '[' :: '1' :: ']' :: 's' :: r => argText ge 0 (args.get? 0) ++ sprintfGo ge args 1 r
  | k, '%' :: '.' :: 'v' :: r => argText ge 0 (args.get? k) ++ sprintfGo ge args (k + 1) r
  | k, '%' :: '.' :: '3' :: 'v' :: r => argText ge 3 (args.get? k) ++ sprintfGo ge args (k + 1) r
  | k, c :: r => c :: sprintfGo ge args k r

/-- The function `fmt.Sprintf` on string and integer arguments. -/
def Sprintf (format : String) (args : List Arg) : String :=
  String.mk (sprintfGo (fun _ _ => "") args 0 format.data)

/-- One formatting call on the writer: its format string and its arguments. -/
structure Chunk where
  format : String
  args : List Arg

/-- The writer `w`: the formatting calls made on it so far, oldest first. -/
abbrev Buffer := List Chunk

/-- The methods `g.Fgenf(w, format, args...)` and `g.Fprintf(w, format, args...)`, as
they act on the writer; what the printing of the arguments does to the generator is
`printed`. -/
def Fgenf (w : Buffer) (format : String) (args : List Arg) : Buffer :=
  w ++ [⟨format, args⟩]

/-- The method `g.Fprint(w, s)`, which writes `s` as it is. -/
def Fprint (w : Buffer) (s : String) : Buffer :=
  w ++ [⟨"%s", [.str s]⟩]

/-- The characters one formatting call writes. -/
def Chunk.chars (x : Externals) (c : Chunk) : List Char :=
  sprintfGo x.genExpression c.args 0 c.format.data

/-- The text one formatting call writes. -/
def Chunk.text (x : Externals) (c : Chunk) : String :=
  String.mk (c.chars x)

/-- The text in the writer (`index.String()`). -/
def Buffer.text (x : Externals) (w : Buffer) : String :=
  String.mk (w.flatMap (Chunk.chars x))

/-- The diagnostics the printer appends for one argument: an expression is printed by the
generator itself, strings and integers by `fmt`. -/
def argDiagnostics (x : Externals) (prec : Nat) : Option Arg → Diagnostics
  | some (.expr e) => x.genExpressionDiagnostics prec e
  | _ => []

/-- The diagnostics the printer appends while one formatting call is written: those of its
expression arguments, verb by verb (the verbs are read as in `sprintfGo`). -/
def diagnosticsGo (x : Externals) (args : List Arg) : Nat → List Char → Diagnostics
  | _, [] => []
  | k, '%' :: 's' :: r => argDiagnostics x 0 (args.get? k) ++ diagnosticsGo x args (k + 1) r
  | k, '%' :: 'd' :: r => argDiagnostics x 0 (args.get? k) ++ diagnosticsGo x args (k + 1) r
  | _, '%' :: '[' :: '1' :: ']' :: 's' :: r =>
    argDiagnostics x 0 (args.get? 0) ++ diagnosticsGo x args 1 r
  | k, '%' :: '.' :: 'v' :: r => argDiagnostics x 0 (args.get? k) ++ diagnosticsGo x args (k + 1) r
  | k, '%' :: '.' :: '3' :: 'v' :: r =>
    argDiagnostics x 3 (args.get? k) ++ diagnosticsGo x args (k + 1) r
  | k, _ :: r => diagnosticsGo x args k r

/-- The diagnostics the printer appends while one formatting call is written. -/
def Chunk.diagnostics (x : Externals) (c : Chunk) : Diagnostics :=
  diagnosticsGo x c.args 0 c.format.data

/-- The diagnostics the printer appends while the calls of `out` are written, in order. -/
def Buffer.diagnostics (x : Externals) (out : Buffer) : Diagnostics :=
  out.flatMap (Chunk.diagnostics x)

/-- The generator after the calls that `w1` holds beyond `w` have been written: the
formatting methods are methods of the generator, and printing an expression argument may
append to `g.diagnostics`. -/
def printed (x : Externals) (g : generator) (w w1 : Buffer) : generator :=
  ⟨g.diagnostics ++ Buffer.diagnostics x (w1.drop w.length), g.jsonTempSpiller,
    g.ternaryTempSpiller⟩

/-- The function `unicode.ToUpper`: in ASCII the letters `a` to `z` are upper-cased, the
runes beyond ASCII follow Go's case tables. -/
def toUpperRune (x : Externals) (c : Char) : Char :=
  if c.val ≤ 0x7F then c.toUpper else x.unicodeToUpper c

/-- The function `unicode.ToTitle`: in ASCII the letters `a` to `z` are upper-cased, the
runes beyond ASCII follow Go's case tables. -/
def toTitleRune (x : Externals) (c : Char) : Char :=
  if c.val ≤ 0x7F then c.toUpper else x.unicodeToTitle c

/-- The function `strings.ToUpper`: every rune mapped by `unicode.ToUpper`. -/
def ToUpper (x : Externals) (s : String) : String :=
  String.mk (s.data.map (toUpperRune x))

/-- The function `unicode.IsSpace` on the runes beyond ASCII. -/
def isSpaceBeyondASCII (c : Char) : Bool :=
  c.val == 0x85 || c.val == 0xA0 || c.val == 0x1680 || (0x2000 ≤ c.val && c.val ≤ 0x200A)
    || c.val == 0x2028 || c.val == 0x2029 || c.val == 0x202F || c.val == 0x205F
    || c.val == 0x3000

/-- The separator test of `strings.Title`: in ASCII everything but letters, digits and
the underscore; beyond ASCII the white space (letters and digits are no white space). -/
def isSeparator (c : Char) : Bool :=
  if c.val ≤ 0x7F then !(c.isAlphanum || c == '_') else isSpaceBeyondASCII c

/-- The loop of `strings.Title`: a rune that follows a separator is title-cased. -/
def titleChars (x : Externals) : Char → List Char → List Char
  | _, [] => []
  | prev, c :: r => (if isSeparator prev then toTitleRune x c else c) :: titleChars x c r

/-- The function `strings.Title`. -/
def Title (x : Externals) (s : String) : String :=
  String.mk (titleChars x ' ' s.data)

/-- The constant `hcl2.Invoke`. -/
def Invoke : String := "invoke"

/-! ## Temp emission -/

/-- The local `bytesVar` of `genTemps`: the name bound to the bytes `json.Marshal`
returns for a `jsonTemp`. -/
def bytesVar (x : Externals) (t : jsonTemp) : String :=
  Sprintf "tmp%s" [.str (ToUpper x t.Name)]

/-- The method `generator.genTemps`. -/
def genTemps (x : Externals) : Buffer → List Temp → Except Panic Buffer
  | w, [] => .ok w
  | w, .ternary t :: rest =>
    let isInput := false
    let w := Fgenf w "var %s %s\n"
      [.str t.Name, .str (x.argumentTypeName t.Value.TrueResult t.Type isInput)]
    let w := Fgenf w "if %.v \x7b\n" [.expr t.Value.Condition]
    let w := Fgenf w "%s = %.v\n" [.str t.Name, .expr t.Value.TrueResult]
    let w := Fgenf w "\x7d else \x7b\n" []
    let w := Fgenf w "%s = %.v\n" [.str t.Name, .expr t.Value.FalseResult]
    let w := Fgenf w "\x7d\n" []
    genTemps x w rest
  | w, .json t :: rest =>
    let bytesVar := bytesVar x t
    let w := Fgenf w "%s, err := json.Marshal(" [.str bytesVar]
    match t.Value.Args with
    | [] => .error .indexOutOfRange
    | arg0 :: _ =>
      let args := x.stripInputs arg0
      let w := Fgenf w "%.v)\n" [.expr args]
      let w := Fgenf w "if err != nil \x7b\n" []
      let w := Fgenf w "return err\n" []
      let w := Fgenf w "\x7d\n" []
      let w := Fgenf w "%s := string(%s)\n" [.str t.Name, .str bytesVar]
      genTemps x w rest
  | w, .other _ :: rest => genTemps x w rest

/-- The call `g.lowerExpression(expr, typ, isInput)` with its effect on the generator:
only the two temp-name allocators change. -/
def lower (x : Externals) (g : generator) (expr : Expression) (typ : ModelType)
    (isInput : Bool) : Expression × List Temp × generator :=
  let r := x.lowerExpression g expr typ isInput
  (r.1, r.2.1, ⟨g.diagnostics, r.2.2.1, r.2.2.2⟩)

/-! ## Node emission -/

/-- The first loop of `genResource`: each input is lowered (with `isInput` true), the
attribute is overwritten with the lowered value, and its temps are emitted.  The result
carries the inputs as the loop leaves them. -/
def lowerInputs (x : Externals) (r : Resource) :
    Buffer → generator → List Attribute → Except Panic (Buffer × generator × List Attribute)
  | w, g, [] => .ok (w, g, [])
  | w, g, input :: rest =>
    let (destType, diagnostics) := x.traverse r.InputType input.Name
    let g : generator := ⟨g.diagnostics ++ diagnostics, g.jsonTempSpiller, g.ternaryTempSpiller⟩
    let isInput := true
    let (expr, temps, g) := lower x g input.Value destType isInput
    let input : Attribute := ⟨input.Name, expr⟩
    match genTemps x w temps with
    | .error e => .error e
    | .ok w1 =>
      let g := printed x g w w1
      match lowerInputs x r w1 g rest with
      | .error e => .error e
      | .ok (w, g, rest) => .ok (w, g, input :: rest)

/-- The second loop of `genResource`: one field per input. -/
def genFields (x : Externals) : Buffer → List Attribute → Buffer
  | w, [] => w
  | w, attr :: rest =>
    let w := Fgenf w "%s: " [.str (Title x attr.Name)]
    let w := Fgenf w "%.v,\n" [.expr attr.Value]
    genFields x w rest

/-- The method `generator.genResource`. -/
def genResource (x : Externals) (w : Buffer) (g : generator) (r : Resource) :
    Except Panic (Buffer × generator) :=
  let resName := r.name
  let (_, mod, typ) := r.decomposed
  match lowerInputs x r w g r.Inputs with
  | .error e => .error e
  | .ok (w0, g, inputs) =>
    let w := Fgenf w0 "%s, err := %s.New%s(ctx, \"%[1]s\", " [.str resName, .str mod, .str typ]
    let w :=
      if inputs.length > 0 then
        let w := Fgenf w "&%s.%sArgs\x7b\n" [.str mod, .str typ]
        let w := genFields x w inputs
        Fgenf w "\x7d)\n" []
      else
        Fgenf w "nil)\n" []
    let w := Fgenf w "if err != nil \x7b\n" []
    let w := Fgenf w "return err\n" []
    let w := Fgenf w "\x7d\n" []
    .ok (w, printed x g w0 w)

/-- The method `generator.genOutputAssignment`. -/
def genOutputAssignment (x : Externals) (w : Buffer) (g : generator) (v : OutputVariable) :
    Except Panic (Buffer × generator) :=
  let isInput := false
  let (expr, temps, g) := lower x g v.Value v.typ isInput
  match genTemps x w temps with
  | .error e => .error e
  | .ok w1 =>
    let w1 := Fgenf w1 "ctx.Export(\"%s\", %.3v)\n" [.str v.name, .expr expr]
    .ok (w1, printed x g w w1)

/-- The method `generator.genLocalVariable`. -/
def genLocalVariable (x : Externals) (w : Buffer) (g : generator) (v : LocalVariable) :
    Except Panic (Buffer × generator) :=
  let isInput := false
  let (expr, temps, g) := lower x g v.Value v.typ isInput
  match genTemps x w temps with
  | .error e => .error e
  | .ok w1 =>
    match expr with
    | .functionCall name _ =>
      if name = Invoke then
        let w1 := Fgenf w1 "%s, err := %.3v;\n" [.str v.name, .expr expr]
        let w1 := Fgenf w1 "if err != nil \x7b\n" []
        let w1 := Fgenf w1 "return err\n" []
        let w1 := Fgenf w1 "\x7d\n" []
        .ok (w1, printed x g w w1)
      else
        .ok (w1, printed x g w w1)
    | _ =>
      let w1 := Fgenf w1 "%s := %.3v;\n" [.str v.name, .expr expr]
      .ok (w1, printed x g w w1)

/-- The method `generator.genNode`. -/
def genNode (x : Externals) (w : Buffer) (g : generator) : Node → Except Panic (Buffer × generator)
  | .resource r => genResource x w g r
  | .outputVariable v => genOutputAssignment x w g v
  | .localVariable v => genLocalVariable x w g v
  | .configVariable _ => .ok (w, g)

/-! ## Import collection -/

/-- Modelled from the spec: `codegen.StringSet` (declared in package `codegen`): a
deduplicated set of strings, here the list of its members without repetition. -/
abbrev StringSet := List String

/-- Modelled from the spec: `codegen.NewStringSet()`, the empty set. -/
def NewStringSet : StringSet := []

/-- Modelled from the spec: the method `StringSet.Add`; membership is deduplicated. -/
def StringSet.Add (s : StringSet) (v : String) : StringSet :=
  if v ∈ s then s else s ++ [v]

/-- Modelled from the spec: the method `StringSet.SortedValues`; the members in a
deterministic sort, ascending. -/
def StringSet.SortedValues (s : StringSet) : List String :=
  s.insertionSort (fun a b => a ≤ b)

/-- The Go conversion `int(v)` of a `uint64` on a 64-bit platform: the same 64 bits read
as a two's complement number. -/
def intOfUint64 (v : Nat) : Int :=
  let u : Nat := v % 2 ^ 64
  if u < 2 ^ 63 then Int.ofNat u else Int.ofNat u - 2 ^ 64

/-- The inner loop of `collectImports`: `version` starts at `-1` and takes the major
version of the first package entry named `pkg`. -/
def findVersion (pkg : String) : List Package → Except Panic Int
  | [] => .ok (-1)
  | p :: rest =>
    if p.Name = pkg then
      match p.Version with
      | none => .error .nilDereference
      | some v => .ok (intOfUint64 v.Major)
    else findVersion pkg rest

/-- The import path `collectImports` builds for a package, its converted major version
and a module. -/
def providerImport (pkg : String) (version : Int) (mod : String) : String :=
  let vPath := Sprintf "/v%d" [.int version]
  let vPath := if version ≤ 1 then "" else vPath
  Sprintf "github.com/pulumi/pulumi-%s/sdk%s/go/%s/%s" [.str pkg, .str vPath, .str pkg, .str mod]

/-- The resource branch of the loop body of `collectImports`. -/
def collectResource (program : Program) (pulumiImports : StringSet) :
    Node → Except Panic StringSet
  | .resource r =>
    let (pkg, mod, _) := r.decomposed
    match findVersion pkg program.Packages with
    | .error e => .error e
    | .ok version =>
      if version = -1 then
        .error (.errorf (Sprintf
          "could not find package information for resource with type token:\n\n%s" [.str r.Token]))
      else
        .ok (pulumiImports.Add (providerImport pkg version mod))
  | _ => .ok pulumiImports

/-- The callback `collectImports` passes to `VisitExpressions`. -/
def visitCall (x : Externals) (stdImports : StringSet) : Expression → StringSet
  | .functionCall name args =>
    (x.genFunctionPackages ⟨name, args⟩).foldl StringSet.Add stdImports
  | _ => stdImports

/-- The loop of `collectImports` over `program.Nodes`. -/
def collectLoop (x : Externals) (program : Program) :
    StringSet → StringSet → List Node → Except Panic (StringSet × StringSet)
  | stdImports, pulumiImports, [] => .ok (stdImports, pulumiImports)
  | stdImports, pulumiImports, n :: rest =>
    match collectResource program pulumiImports n with
    | .error e => .error e
    | .ok pulumiImports =>
      let (visited, diags) := x.visitExpressions n
      let stdImports := visited.foldl (visitCall x) stdImports
      if diags.length = 0 then collectLoop x program stdImports pulumiImports rest
      else .error .assertFailed

/-- The method `generator.collectImports`: the standard-library imports and the provider
imports. -/
def collectImports (x : Externals) (program : Program) : Except Panic (StringSet × StringSet) :=
  let pulumiImports := NewStringSet
  let stdImports := NewStringSet
  collectLoop x program stdImports pulumiImports program.Nodes

/-! ## Program framing -/

/-- The two loops of `genPreamble` that write one quoted line per import. -/
def genImportLines : Buffer → List String → Buffer
  | w, [] => w
  | w, imp :: rest => genImportLines (Fgenf w "\"%s\"\n" [.str imp]) rest

/-- The method `generator.genPreamble`. -/
def genPreamble (x : Externals) (w : Buffer) (program : Program) : Except Panic Buffer :=
  let w := Fprint w "package main\n\n"
  let w := Fgenf w "import (\n" []
  match collectImports x program with
  | .error e => .error e
  | .ok (stdImports, pulumiImports) =>
    let w := genImportLines w stdImports.SortedValues
    let w := Fgenf w "\n" []
    let w := Fgenf w "\"github.com/pulumi/pulumi/sdk/v2/go/pulumi\"\n" []
    let w := genImportLines w pulumiImports.SortedValues
    let w := Fgenf w ")\n" []
    let w := Fgenf w "func main() \x7b\n" []
    let w := Fgenf w "pulumi.Run(func(ctx *pulumi.Context) error \x7b\n" []
    .ok w

/-- The method `generator.genPostamble`. -/
def genPostamble (w : Buffer) (_nodes : List Node) : Buffer :=
  let w := Fprint w "return nil\n"
  let w := Fgenf w "\x7d)\n" []
  let w := Fgenf w "\x7d\n" []
  w

/-- The loop of `GenerateProgram` over the linearised nodes. -/
def genNodes (x : Externals) : Buffer → generator → List Node → Except Panic (Buffer × generator)
  | w, g, [] => .ok (w, g)
  | w, g, n :: rest =>
    match genNode x w g n with
    | .error e => .error e
    | .ok (w, g) => genNodes x w g rest

/-- The function `GenerateProgram`: the file map and the diagnostics; the returned error
is always nil. -/
def GenerateProgram (x : Externals) (program : Program) :
    Except Panic (List (String × String) × Diagnostics) :=
  let nodes := x.Linearize program
  let g : generator := ⟨[], ⟨0⟩, ⟨0⟩⟩
  let index : Buffer := []
  match genPreamble x index program with
  | .error e => .error e
  | .ok index =>
    match genNodes x index g nodes with
    | .error e => .error e
    | .ok (index, g) =>
      let index := genPostamble index nodes
      match x.gofmtSource (index.text x) with
      | none => .error (.errorf (Sprintf "invalid Go source code:\n\n%s" [.str (index.text x)]))
      | some formattedSource => .ok ([("main.go", formattedSource)], g.diagnostics)

/-! ## Sample collaborators and inputs -/

/-- A small expression printer: literals and references print as their text. -/
def sampleGenExpression (_prec : Nat) : Expression → String
  | .literal text => text
  | .scopeTraversal rootName => rootName
  | .functionCall name _ => name ++ "()"
  | .objectCons _ => "obj"
  | .conditional _ _ _ => "cond"

/-- A small lowering: a top-level `toJSON` call and a top-level conditional are spilled
into a temp named after the allocator's counter; everything else is left as it is. -/
def sampleLower (g : generator) (e : Expression) (typ : ModelType) (_isInput : Bool) :
    Expression × List Temp × jsonSpiller × tempSpiller :=
  match e with
  | .functionCall "toJSON" args =>
    let name := "json" ++ toString g.jsonTempSpiller.count
    (.scopeTraversal name, [.json ⟨name, ⟨"toJSON", args⟩⟩],
      ⟨g.jsonTempSpiller.count + 1⟩, g.ternaryTempSpiller)
  | .conditional c t f =>
    let name := "tmp" ++ toString g.ternaryTempSpiller.count
    (.scopeTraversal name, [.ternary ⟨name, ⟨c, t, f, typ⟩⟩],
      g.jsonTempSpiller, ⟨g.ternaryTempSpiller.count + 1⟩)
  | e => (e, [], g.jsonTempSpiller, g.ternaryTempSpiller)

/-- Sample collaborators, for evaluating the generator on concrete programs. -/
def sampleExternals : Externals where
  genExpression := sampleGenExpression
  genExpressionDiagnostics := fun _ _ => []
  lowerExpression := sampleLower
  argumentTypeName := fun _ _ _ => "string"
  stripInputs := fun e => e
  traverse := fun typ _ => (typ, [])
  genFunctionPackages := fun call => if call.Name = "toJSON" then ["encoding/json"] else []
  visitExpressions := fun n =>
    match n with
    | .resource r => (r.Inputs.map (fun a => a.Value), [])
    | .outputVariable v => ([v.Value], [])
    | .localVariable v => ([v.Value], [])
    | .configVariable _ => ([], [])
  Linearize := fun program => program.Nodes
  gofmtSource := fun source => some source
  unicodeToUpper := fun c => c
  unicodeToTitle := fun c => c

/-- The generator state at the start of `GenerateProgram`. -/
def sampleGenerator : generator := ⟨[], ⟨0⟩, ⟨0⟩⟩

/-- A local variable bound to a call of a function other than `invoke`. -/
def sampleAssetLocal : LocalVariable :=
  ⟨"asset", ⟨"asset"⟩, .functionCall "fileAsset" [.literal "\"index.html\""]⟩

/-- A bucket resource without inputs. -/
def sampleBucket : Resource :=
  ⟨"bucket", "aws:s3:Bucket", ("aws", "s3", "Bucket"), [], ⟨"BucketArgs"⟩⟩

/-- A package list in which `aws` carries the largest `uint64` major version. -/
def samplePackagesMax : List Package := [⟨"aws", some ⟨18446744073709551615⟩⟩]

/-- A package list in which `aws` carries the major version `2 ^ 63`. -/
def samplePackagesHuge : List Package := [⟨"aws", some ⟨9223372036854775808⟩⟩]

/-- A `jsonTemp` as the lowering names it: `json0`, spilled from `toJSON(obj)`. -/
def sampleJsonTemp : jsonTemp := ⟨"json0", ⟨"toJSON", [.objectCons [.literal "1"]]⟩⟩

/-- A second `jsonTemp`, named `json1`. -/
def sampleJsonTemp1 : jsonTemp := ⟨"json1", ⟨"toJSON", [.literal "2"]⟩⟩

/-- A `ternaryTemp` named `tmp0`, spilled from `flag ? "a" : "b"`. -/
def sampleTernaryTemp : ternaryTemp :=
  ⟨"tmp0", ⟨.scopeTraversal "flag", .literal "\"a\"", .literal "\"b\"", ⟨"string"⟩⟩⟩

/-- A site resource with three inputs: a `toJSON` call, a conditional and a reference. -/
def sampleSite : Resource :=
  ⟨"site", "aws:s3:BucketObject", ("aws", "s3", "BucketObject"),
    [⟨"policy", .functionCall "toJSON" [.objectCons [.literal "1"]]⟩,
     ⟨"acl", .conditional (.scopeTraversal "isPublic") (.literal "\"public-read\"")
        (.literal "\"private\"")⟩,
     ⟨"bucket", .scopeTraversal "bucket"⟩],
    ⟨"BucketObjectArgs"⟩⟩

/-- A program with two resources of the package `aws`, an output and a local variable. -/
def sampleProgram : Program :=
  ⟨[.resource sampleBucket, .resource sampleSite,
    .outputVariable ⟨"url", ⟨"string"⟩, .scopeTraversal "site"⟩,
    .localVariable sampleAssetLocal],
   [⟨"random", some ⟨1⟩⟩, ⟨"aws", some ⟨2⟩⟩]⟩

/-- The statements `genNode` writes for `sampleSite` on an empty writer. -/
def sampleSiteOut : Buffer :=
  match genNode sampleExternals [] sampleGenerator (.resource sampleSite) with
  | .ok (w, _) => w
  | .error _ => []

/-! ## Specification-side definitions -/

/-- The statements `genTemps` writes for one descriptor, on an empty writer (nothing when
it panics). -/
def tempGroup (x : Externals) (t : Temp) : Buffer :=
  match genTemps x [] [t] with
  | .ok out => out
  | .error _ => []

/-- The failure check `if err != nil { return err }`, as the three calls that write it. -/
def failureCheck : Buffer :=
  [⟨"if err != nil \x7b\n", []⟩, ⟨"return err\n", []⟩, ⟨"\x7d\n", []⟩]

/-- Whether `pat` occurs in a list of characters. -/
def hasInfix (pat : List Char) : List Char → Bool
  | [] => pat.isEmpty
  | c :: r => pat.isPrefixOf (c :: r) || hasInfix pat r

/-- A call starts a fallible statement when its format binds `err`. -/
def Chunk.bindsErr (c : Chunk) : Bool :=
  hasInfix ", err := ".data c.format.data

/-- The brackets a call's format opens minus those it closes. -/
def Chunk.depth (c : Chunk) : Int :=
  (Int.ofNat (c.format.data.count '(') + Int.ofNat (c.format.data.count '\x7b'))
    - (Int.ofNat (c.format.data.count ')') + Int.ofNat (c.format.data.count '\x7d'))

/-- The calls that follow the statement starting at the head of the list: the statement
ends with the first call at which every bracket opened since its start (`d` counts those
open so far) is closed again. -/
def restAfterStatement : Int → Buffer → Option Buffer
  | _, [] => none
  | d, c :: rest =>
    if d + c.depth ≤ 0 then some rest else restAfterStatement (d + c.depth) rest

/-- Whether a call is the literal `s`, without arguments. -/
def Chunk.isLiteral (c : Chunk) (s : String) : Bool :=
  c.format == s && c.args.isEmpty

/-- Whether the list starts with the failure check. -/
def startsWithFailureCheck : Buffer → Bool
  | a :: b :: c :: _ =>
    a.isLiteral "if err != nil \x7b\n" && b.isLiteral "return err\n" && c.isLiteral "\x7d\n"
  | _ => false

/-- Whether the statement starting at the head of the list is directly followed by the
failure check. -/
def followedByCheck (l : Buffer) : Bool :=
  match restAfterStatement 0 l with
  | some rest => startsWithFailureCheck rest
  | none => false

/-- Whether every fallible statement in the list is directly followed by the failure
check. -/
def allFallibleChecked : Buffer → Bool
  | [] => true
  | c :: rest => (!c.bindsErr || followedByCheck (c :: rest)) && allFallibleChecked rest

/-- The lowering of the inputs of a resource, one after the other, each with the input
flag set: per input the rewritten attribute and its temps, and the generator afterwards,
which has seen the traversal of each input type and the printing of each temp group. -/
def lowerAll (x : Externals) (r : Resource) :
    generator → List Attribute → List (Attribute × List Temp) × generator
  | g, [] => ([], g)
  | g, input :: rest =>
    let d := x.traverse r.InputType input.Name
    let l := lower x ⟨g.diagnostics ++ d.2, g.jsonTempSpiller, g.ternaryTempSpiller⟩
      input.Value d.1 true
    let others := lowerAll x r (printed x l.2.2 [] (l.2.1.flatMap (tempGroup x))) rest
    ((⟨input.Name, l.1⟩, l.2.1) :: others.1, others.2)

/-- Whether a descriptor can be emitted: a `jsonTemp` needs a first argument. -/
def Temp.hasFirstArg : Temp → Bool
  | .json t => !t.Value.Args.isEmpty
  | _ => true

/-- The temps the lowering hands to `genNode` for a node, in emission order. -/
def nodeTemps (x : Externals) (g : generator) : Node → List Temp
  | .resource r => (lowerAll x r g r.Inputs).1.flatMap (fun l => l.2)
  | .outputVariable v => (x.lowerExpression g v.Value v.typ false).2.1
  | .localVariable v => (x.lowerExpression g v.Value v.typ false).2.1
  | .configVariable _ => []

/-- The construction call of a resource over the given argument fields: `nil` without
fields, otherwise one `Name: value,` line per field, in order. -/
def constructionCall (x : Externals) (r : Resource) (fields : List Attribute) : Buffer :=
  ⟨"%s, err := %s.New%s(ctx, \"%[1]s\", ",
      [.str r.name, .str r.decomposed.2.1, .str r.decomposed.2.2]⟩ ::
    (if fields.isEmpty then [⟨"nil)\n", []⟩]
     else
      ⟨"&%s.%sArgs\x7b\n", [.str r.decomposed.2.1, .str r.decomposed.2.2]⟩ ::
        (fields.flatMap
            (fun a => [⟨"%s: ", [.str (Title x a.Name)]⟩, ⟨"%.v,\n", [.expr a.Value]⟩])
          ++ [⟨"\x7d)\n", []⟩]))

/-- The provider import path of a resource under the program's package metadata, when
`collectImports` computes one. -/
def resourceImport (program : Program) (r : Resource) : Option String :=
  match findVersion r.decomposed.1 program.Packages with
  | .ok version =>
    if version = -1 then none else some (providerImport r.decomposed.1 version r.decomposed.2.1)
  | .error _ => none

/-- The part of `GenerateProgram` that comes before the call of the formatter: the
linearised nodes, the fresh generator, the preamble, the loop over the nodes and the
postamble.  The result is the writer `index` and the generator. -/
def assemble (x : Externals) (program : Program) : Except Panic (Buffer × generator) :=
  let nodes := x.Linearize program
  let g : generator := ⟨[], ⟨0⟩, ⟨0⟩⟩
  let index : Buffer := []
  match genPreamble x index program with
  | .error e => .error e
  | .ok index =>
    match genNodes x index g nodes with
    | .error e => .error e
    | .ok (index, g) => .ok (genPostamble index nodes, g)

/-- The text of one quoted line per import, in list order. -/
def importLines : List String → String
  | [] => ""
  | imp :: rest => "\"" ++ imp ++ "\"\n" ++ importLines rest

/-- The diagnostics the input-type traversal reports while a node is emitted: for a
resource those of each input, in input order; none for the other nodes. -/
def nodeDiagnostics (x : Externals) : Node → Diagnostics
  | .resource r => r.Inputs.flatMap (fun input => (x.traverse r.InputType input.Name).2)
  | _ => []

/-- Sample collaborators whose input-type traversal reports one diagnostic per input and
whose printer reports one for every object it writes. -/
def sampleExternalsTraverse : Externals where
  genExpression := sampleGenExpression
  genExpressionDiagnostics := fun _ e =>
    match e with
    | .objectCons _ => ["not yet implemented: object"]
    | _ => []
  lowerExpression := sampleLower
  argumentTypeName := fun _ _ _ => "string"
  stripInputs := fun e => e
  traverse := fun typ name => (typ, ["unknown input " ++ name])
  genFunctionPackages := sampleExternals.genFunctionPackages
  visitExpressions := sampleExternals.visitExpressions
  Linearize := fun program => program.Nodes
  gofmtSource := fun source => some source
  unicodeToUpper := fun c => c
  unicodeToTitle := fun c => c

/-- Sample collaborators whose expression traversal reports one diagnostic per node. -/
def sampleExternalsVisit : Externals where
  genExpression := sampleGenExpression
  genExpressionDiagnostics := fun _ _ => []
  lowerExpression := sampleLower
  argumentTypeName := fun _ _ _ => "string"
  stripInputs := fun e => e
  traverse := fun typ _ => (typ, [])
  genFunctionPackages := sampleExternals.genFunctionPackages
  visitExpressions := fun _ => ([], ["unsupported expression"])
  Linearize := fun program => program.Nodes
  gofmtSource := fun source => some source
  unicodeToUpper := fun c => c
  unicodeToTitle := fun c => c

/-- Sample collaborators whose formatter rejects every text. -/
def sampleExternalsReject : Externals where
  genExpression := sampleGenExpression
  genExpressionDiagnostics := fun _ _ => []
  lowerExpression := sampleLower
  argumentTypeName := fun _ _ _ => "string"
  stripInputs := fun e => e
  traverse := fun typ _ => (typ, [])
  genFunctionPackages := sampleExternals.genFunctionPackages
  visitExpressions := sampleExternals.visitExpressions
  Linearize := fun program => program.Nodes
  gofmtSource := fun _ => none
  unicodeToUpper := fun c => c
  unicodeToTitle := fun c => c

/-- An output variable whose value is the conditional `isPublic ? "yes" : "no"`. -/
def sampleOutput : OutputVariable :=
  ⟨"visibility", ⟨"string"⟩,
    .conditional (.scopeTraversal "isPublic") (.literal "\"yes\"") (.literal "\"no\"")⟩

/-- A program with the bucket alone. -/
def sampleSmallProgram : Program :=
  ⟨[.resource sampleBucket], [⟨"aws", some ⟨2⟩⟩]⟩

/-- The program text of `sampleProgram` before formatting. -/
def sampleIndex : Buffer :=
  match assemble sampleExternals sampleProgram with
  | .ok (index, _) => index
  | .error _ => []

/-- The program text of `sampleSmallProgram` before formatting. -/
def sampleSmallIndex : Buffer :=
  match assemble sampleExternals sampleSmallProgram with
  | .ok (index, _) => index
  | .error _ => []

/-! ## Temp emission -/

/-- The writer `genTemps` starts from is only a prefix of its result. -/
theorem genTemps_from_empty (x : Externals) (ts : List Temp) (w : Buffer) :
    genTemps x w ts =
      match genTemps x [] ts with
      | .error e => .error e
      | .ok out => .ok (w ++ out) := by
  induction ts generalizing w with
  | nil => simp [genTemps]
  | cons t rest ih =>
    cases t with
    | ternary t =>
      simp only [genTemps, Fgenf, List.append_assoc, List.nil_append, List.cons_append]
      rw [ih (w ++ _), ih [_, _, _, _, _, _]]
      cases genTemps x [] rest <;> simp
    | json t =>
      cases h : t.Value.Args with
      | nil => simp [genTemps, h]
      | cons a as =>
        simp only [genTemps, h, Fgenf, List.append_assoc, List.nil_append, List.cons_append]
        rw [ih (w ++ _), ih [_, _, _, _, _, _]]
        cases genTemps x [] rest <;> simp
    | other d =>
      simp only [genTemps]
      exact ih w

/-- One step of the loop of `genTemps`. -/
theorem genTemps_cons (x : Externals) (t : Temp) (ts : List Temp) (w : Buffer) :
    genTemps x w (t :: ts) =
      match genTemps x w [t] with
      | .error e => .error e
      | .ok w1 => genTemps x w1 ts := by
  cases t with
  | ternary t => simp [genTemps]
  | json t =>
    cases h : t.Value.Args with
    | nil => simp [genTemps, h]
    | cons a as => simp [genTemps, h]
  | other d => simp [genTemps]

/-- The loop of `genTemps` over an appended list runs over the two lists in turn. -/
theorem genTemps_append (x : Externals) (ts1 ts2 : List Temp) (w : Buffer) :
    genTemps x w (ts1 ++ ts2) =
      match genTemps x w ts1 with
      | .error e => .error e
      | .ok w1 => genTemps x w1 ts2 := by
  induction ts1 generalizing w with
  | nil => simp [genTemps]
  | cons t rest ih =>
    rw [List.cons_append, genTemps_cons, genTemps_cons x t rest]
    cases genTemps x w [t] with
    | error e => rfl
    | ok w1 => exact ih w1

/-- When `genTemps` returns, it has appended the group of each descriptor, in order. -/
theorem genTemps_ok_flatMap (x : Externals) (ts : List Temp) (w w1 : Buffer)
    (h : genTemps x w ts = .ok w1) : w1 = w ++ ts.flatMap (tempGroup x) := by
  induction ts generalizing w with
  | nil => simp [genTemps] at h; simp [h]
  | cons t rest ih =>
    rw [genTemps_cons, genTemps_from_empty x [t]] at h
    simp only [List.flatMap_cons]
    cases h1 : genTemps x [] [t] with
    | error e => simp [h1] at h
    | ok out =>
      simp only [h1] at h
      rw [ih _ h]
      simp [tempGroup, h1]

/-- A descriptor that can be emitted yields its group. -/
theorem genTemps_single (x : Externals) (t : Temp) (h : t.hasFirstArg = true) :
    genTemps x [] [t] = .ok (tempGroup x t) := by
  cases t with
  | ternary t => rfl
  | json t =>
    cases ha : t.Value.Args with
    | nil => simp [Temp.hasFirstArg, ha] at h
    | cons a as => simp [tempGroup, genTemps, ha]
  | other d => rfl

/-- The loop of `genTemps` returns when every `jsonTemp` has a first argument. -/
theorem genTemps_total (x : Externals) (ts : List Temp) (w : Buffer)
    (h : ∀ t ∈ ts, t.hasFirstArg = true) :
    genTemps x w ts = .ok (w ++ ts.flatMap (tempGroup x)) := by
  induction ts generalizing w with
  | nil => simp [genTemps]
  | cons t rest ih =>
    rw [genTemps_cons, genTemps_from_empty x [t], genTemps_single x t (h t (by simp))]
    simp only
    rw [ih _ (fun t ht => h t (by simp [ht]))]
    simp

/-- C6: `genTemps` keeps the order of its input: the empty list writes nothing, the
statements for `ts1 ++ ts2` are those for `ts1` followed by those for `ts2`, and the
output is the writer followed by the statement group of each descriptor in list order. -/
theorem genTemps_preserves_order (x : Externals) (w : Buffer) (ts1 ts2 : List Temp) :
    genTemps x w [] = .ok w ∧
    genTemps x w (ts1 ++ ts2) =
      (match genTemps x w ts1 with
       | .error e => .error e
       | .ok w1 => genTemps x w1 ts2) ∧
    (∀ w2, genTemps x w (ts1 ++ ts2) = .ok w2 →
      w2 = w ++ ts1.flatMap (tempGroup x) ++ ts2.flatMap (tempGroup x)) ∧
    ((∀ t ∈ ts1 ++ ts2, t.hasFirstArg = true) →
      genTemps x w (ts1 ++ ts2)
        = .ok (w ++ ts1.flatMap (tempGroup x) ++ ts2.flatMap (tempGroup x))) := by
  refine ⟨rfl, genTemps_append x ts1 ts2 w, ?_, ?_⟩
  · intro w2 h
    rw [genTemps_ok_flatMap x _ w w2 h, List.flatMap_append, List.append_assoc]
  · intro h
    rw [genTemps_total x _ w h, List.flatMap_append, List.append_assoc]

/-- The statements for `[tmp0] ++ [json0]` are the group of `tmp0` followed by the group
of `json0`. -/
theorem genTemps_preserves_order_witness :
    genTemps sampleExternals [] ([.ternary sampleTernaryTemp] ++ [.json sampleJsonTemp])
      = .ok ([] ++ [Temp.ternary sampleTernaryTemp].flatMap (tempGroup sampleExternals)
          ++ [Temp.json sampleJsonTemp].flatMap (tempGroup sampleExternals)) :=
  (genTemps_preserves_order sampleExternals [] [.ternary sampleTernaryTemp]
    [.json sampleJsonTemp]).2.2.2 (by decide)

/-- C7: for a `ternaryTemp` named `n`, `genTemps` writes six lines and nothing else: the
declaration `var n <type>` without initializer, the opening `if <condition> {`, the
assignment of the true result to `n`, `} else {`, the assignment of the false result to
`n`, and the closing `}`. -/
theorem genTemps_ternary_group (x : Externals) (w : Buffer) (t : ternaryTemp) :
    ∃ decl cond thenAssign els elseAssign close : Chunk,
      genTemps x w [.ternary t] = .ok (w ++ [decl, cond, thenAssign, els, elseAssign, close]) ∧
      decl.text x =
        "var " ++ t.Name ++ " " ++ x.argumentTypeName t.Value.TrueResult t.Type false ++ "\n" ∧
      cond.text x = "if " ++ x.genExpression 0 t.Value.Condition ++ " \x7b\n" ∧
      thenAssign.text x = t.Name ++ " = " ++ x.genExpression 0 t.Value.TrueResult ++ "\n" ∧
      els.text x = "\x7d else \x7b\n" ∧
      elseAssign.text x = t.Name ++ " = " ++ x.genExpression 0 t.Value.FalseResult ++ "\n" ∧
      close.text x = "\x7d\n" := by
  refine ⟨⟨"var %s %s\n",
      [.str t.Name, .str (x.argumentTypeName t.Value.TrueResult t.Type false)]⟩,
    ⟨"if %.v \x7b\n", [.expr t.Value.Condition]⟩,
    ⟨"%s = %.v\n", [.str t.Name, .expr t.Value.TrueResult]⟩,
    ⟨"\x7d else \x7b\n", []⟩,
    ⟨"%s = %.v\n", [.str t.Name, .expr t.Value.FalseResult]⟩,
    ⟨"\x7d\n", []⟩, ?_, ?_, ?_, ?_, ?_, ?_, ?_⟩
  · simp only [genTemps, Fgenf, List.append_assoc, List.cons_append, List.nil_append]
  all_goals simp [Chunk.text, Chunk.chars, String.ext_iff, sprintfGo, argText]

/-- C8: for a `jsonTemp` named `n` whose call has a first argument, `genTemps` writes, in
this order and nothing else: the call `tmp<N>, err := json.Marshal(<first argument with
its inputs stripped>)` where `<N>` is `n` in upper case, the failure check, and the
conversion `n := string(tmp<N>)`. -/
theorem genTemps_json_group (x : Externals) (w : Buffer) (t : jsonTemp) (arg0 : Expression)
    (others : List Expression) (h : t.Value.Args = arg0 :: others) :
    ∃ call arg conv : Chunk,
      genTemps x w [.json t] = .ok (w ++ [call, arg] ++ failureCheck ++ [conv]) ∧
      call.text x ++ arg.text x =
        "tmp" ++ ToUpper x t.Name ++ ", err := json.Marshal("
          ++ x.genExpression 0 (x.stripInputs arg0) ++ ")\n" ∧
      failureCheck.text x = "if err != nil \x7b\nreturn err\n\x7d\n" ∧
      conv.text x = t.Name ++ " := string(" ++ ("tmp" ++ ToUpper x t.Name) ++ ")\n" := by
  refine ⟨⟨"%s, err := json.Marshal(", [.str (bytesVar x t)]⟩,
    ⟨"%.v)\n", [.expr (x.stripInputs arg0)]⟩,
    ⟨"%s := string(%s)\n", [.str t.Name, .str (bytesVar x t)]⟩, ?_, ?_, ?_, ?_⟩
  · simp only [genTemps, h, Fgenf, failureCheck, List.append_assoc, List.cons_append,
      List.nil_append]
  · simp [Chunk.text, Chunk.chars, String.ext_iff, sprintfGo, argText, bytesVar, Sprintf]
  · rfl
  · simp [Chunk.text, Chunk.chars, String.ext_iff, sprintfGo, argText, bytesVar, Sprintf]

/-- The statements for `json0`, spilled from `toJSON(obj)`. -/
theorem genTemps_json_group_witness :
    ∃ call arg conv : Chunk,
      genTemps sampleExternals [] [.json sampleJsonTemp]
        = .ok ([] ++ [call, arg] ++ failureCheck ++ [conv]) ∧
      call.text sampleExternals ++ arg.text sampleExternals =
        "tmp" ++ ToUpper sampleExternals sampleJsonTemp.Name ++ ", err := json.Marshal("
          ++ sampleExternals.genExpression 0
              (sampleExternals.stripInputs (.objectCons [.literal "1"])) ++ ")\n" ∧
      failureCheck.text sampleExternals = "if err != nil \x7b\nreturn err\n\x7d\n" ∧
      conv.text sampleExternals =
        sampleJsonTemp.Name ++ " := string("
          ++ ("tmp" ++ ToUpper sampleExternals sampleJsonTemp.Name) ++ ")\n" :=
  genTemps_json_group sampleExternals [] sampleJsonTemp (.objectCons [.literal "1"]) [] rfl


/-- The characters of the intermediate name: `tmp`, then the name in upper case. -/
theorem bytesVar_data (x : Externals) (t : jsonTemp) :
    (bytesVar x t).data = 't' :: 'm' :: 'p' :: t.Name.data.map (toUpperRune x) := by
  simp [bytesVar, Sprintf, sprintfGo, argText, ToUpper]

/-- Upper-casing leaves a decimal digit as it is. -/
theorem toUpperRune_digit (x : Externals) (c : Char) (h : c.isDigit = true) :
    toUpperRune x c = c := by
  have hv : 48 ≤ c.val.toNat ∧ c.val.toNat ≤ 57 := by
    simpa [Char.isDigit, UInt32.le_def, Fin.le_def] using h
  have hascii : c.val ≤ 0x7F := by
    show c.val.toNat ≤ 127
    omega
  have hlow : ¬ (97 ≤ c.toNat ∧ c.toNat ≤ 122) := by
    intro h1
    have : 97 ≤ c.val.toNat := h1.1
    omega
  unfold toUpperRune Char.toUpper
  rw [if_pos hascii]
  simp only [ge_iff_le]
  rw [if_neg hlow]

/-- The digit character of a number below ten is a decimal digit. -/
theorem digitChar_isDigit (n : Nat) (h : n < 10) : (Nat.digitChar n).isDigit = true := by
  interval_cases n <;> rfl

/-- The decimal rendering of a number consists of decimal digits. -/
theorem toDigitsCore_isDigit (fuel : Nat) :
    ∀ (n : Nat) (ds : List Char), (∀ c ∈ ds, c.isDigit = true) →
      ∀ c ∈ Nat.toDigitsCore 10 fuel n ds, c.isDigit = true := by
  induction fuel with
  | zero => intro n ds h c hc; exact h c (by simpa [Nat.toDigitsCore] using hc)
  | succ fuel ih =>
    intro n ds h c hc
    have hd : ∀ c ∈ Nat.digitChar (n % 10) :: ds, c.isDigit = true := by
      intro c hc
      rcases List.mem_cons.mp hc with he | hm
      · rw [he]; exact digitChar_isDigit _ (Nat.mod_lt _ (by decide))
      · exact h c hm
    simp only [Nat.toDigitsCore] at hc
    split at hc
    · exact hd c hc
    · exact ih _ _ hd c hc

/-- The decimal rendering of a counter consists of decimal digits. -/
theorem toString_isDigit (n : Nat) : ∀ c ∈ (toString n).data, c.isDigit = true := by
  intro c hc
  have : (toString n).data = Nat.toDigits 10 n := rfl
  rw [this] at hc
  exact toDigitsCore_isDigit _ _ [] (by simp) c hc

/-- Upper-casing leaves the decimal rendering of a counter as it is. -/
theorem map_toUpperRune_digits (x : Externals) (l : List Char)
    (h : ∀ c ∈ l, c.isDigit = true) : l.map (toUpperRune x) = l := by
  induction l with
  | nil => rfl
  | cons c rest ih =>
    rw [List.map_cons, toUpperRune_digit x c (h c (by simp)), ih (fun c hc => h c (by simp [hc]))]

/-- C9: two `jsonTemp`s with distinct names, named as a counter-based allocator names
them (a common prefix followed by the decimal counter, as in `json0`, `json1`), derive
distinct intermediate names `tmp<NAME>`; and for every `jsonTemp` the intermediate name
differs from the temp's own final name. -/
theorem bytesVar_unique (x : Externals) (t1 t2 : jsonTemp) (pre : String) (i j : Nat)
    (h1 : t1.Name = pre ++ toString i) (h2 : t2.Name = pre ++ toString j)
    (hne : t1.Name ≠ t2.Name) :
    bytesVar x t1 ≠ bytesVar x t2 ∧ (∀ t : jsonTemp, bytesVar x t ≠ t.Name) := by
  constructor
  · intro e
    apply hne
    have hd := congrArg String.data e
    simp only [bytesVar_data, List.cons.injEq, true_and, h1, h2, String.data_append,
      List.map_append, map_toUpperRune_digits x _ (toString_isDigit i),
      map_toUpperRune_digits x _ (toString_isDigit j)] at hd
    rw [h1, h2, List.append_cancel_left hd |> String.ext]
  · intro t e
    have hl := congrArg (fun s : String => s.data.length) e
    simp [bytesVar_data] at hl
    omega

/-- The names `json0` and `json1` derive `tmpJSON0` and `tmpJSON1`. -/
theorem bytesVar_unique_witness :
    (bytesVar sampleExternals sampleJsonTemp ≠ bytesVar sampleExternals sampleJsonTemp1 ∧
      (∀ t : jsonTemp, bytesVar sampleExternals t ≠ t.Name)) ∧
    bytesVar sampleExternals sampleJsonTemp = "tmpJSON0" ∧
    bytesVar sampleExternals sampleJsonTemp1 = "tmpJSON1" :=
  ⟨bytesVar_unique sampleExternals sampleJsonTemp sampleJsonTemp1 "json" 0 1 rfl rfl
    (by decide), by decide, by decide⟩

/-! ## Fallible calls and their checks -/

/-- Appending to the list does not move the end of the statement at its head. -/
theorem restAfterStatement_append (b : Buffer) :
    ∀ (l : Buffer) (d : Int) (r : Buffer), restAfterStatement d l = some r →
      restAfterStatement d (l ++ b) = some (r ++ b) := by
  intro l
  induction l with
  | nil => intro d r h; simp [restAfterStatement] at h
  | cons c rest ih =>
    intro d r h
    simp only [restAfterStatement, List.cons_append] at h ⊢
    by_cases hd : d + c.depth ≤ 0
    · simp only [hd, if_true, Option.some.injEq] at h ⊢
      rw [h]
      rfl
    · simp only [hd, if_false] at h ⊢
      exact ih _ _ h

/-- A list that starts with the failure check still does after an append. -/
theorem startsWithFailureCheck_append (r b : Buffer) (h : startsWithFailureCheck r = true) :
    startsWithFailureCheck (r ++ b) = true := by
  match r, h with
  | a :: b1 :: c :: rest, h => simpa [startsWithFailureCheck] using h

/-- A checked statement stays checked when more is written after it. -/
theorem followedByCheck_append (l b : Buffer) (h : followedByCheck l = true) :
    followedByCheck (l ++ b) = true := by
  unfold followedByCheck at h ⊢
  cases hr : restAfterStatement 0 l with
  | none => simp [hr] at h
  | some r =>
    simp only [hr] at h
    rw [restAfterStatement_append b l 0 r hr]
    exact startsWithFailureCheck_append r b h

/-- Two checked sequences form a checked sequence. -/
theorem allFallibleChecked_append (a b : Buffer) (ha : allFallibleChecked a = true)
    (hb : allFallibleChecked b = true) : allFallibleChecked (a ++ b) = true := by
  induction a with
  | nil => simpa using hb
  | cons c rest ih =>
    simp only [allFallibleChecked, List.cons_append, Bool.and_eq_true, Bool.or_eq_true,
      Bool.not_eq_true'] at ha ⊢
    refine ⟨?_, ih ha.2⟩
    cases ha.1 with
    | inl h => exact Or.inl h
    | inr h => exact Or.inr (by simpa using followedByCheck_append (c :: rest) b h)

/-- The group of one descriptor is checked. -/
theorem tempGroup_checked (x : Externals) (t : Temp) :
    allFallibleChecked (tempGroup x t) = true := by
  cases t with
  | ternary t => rfl
  | json t =>
    cases h : t.Value.Args with
    | nil => simp [tempGroup, genTemps, h, allFallibleChecked]
    | cons a as =>
      simp only [tempGroup, genTemps, h, Fgenf, List.nil_append, List.cons_append]
      rfl
  | other d => rfl

/-- The groups of a list of descriptors are checked. -/
theorem temps_checked (x : Externals) (ts : List Temp) :
    allFallibleChecked (ts.flatMap (tempGroup x)) = true := by
  induction ts with
  | nil => rfl
  | cons t rest ih =>
    rw [List.flatMap_cons]
    exact allFallibleChecked_append _ _ (tempGroup_checked x t) ih

/-- The second loop of `genResource` appends two calls per field. -/
theorem genFields_eq (x : Externals) (attrs : List Attribute) (w : Buffer) :
    genFields x w attrs =
      w ++ attrs.flatMap
        (fun a => [⟨"%s: ", [.str (Title x a.Name)]⟩, ⟨"%.v,\n", [.expr a.Value]⟩]) := by
  induction attrs generalizing w with
  | nil => simp [genFields]
  | cons a rest ih => simp [genFields, Fgenf, ih]

/-- What the printer does to the generator depends only on the calls written. -/
theorem printed_append (x : Externals) (g : generator) (w out : Buffer) :
    printed x g w (w ++ out) = printed x g [] out := by
  simp [printed]

/-- The first loop of `genResource`, as one run of `genTemps` over all the temps. -/
theorem lowerInputs_eq (x : Externals) (r : Resource) (inputs : List Attribute)
    (w : Buffer) (g : generator) :
    lowerInputs x r w g inputs =
      match genTemps x w ((lowerAll x r g inputs).1.flatMap (fun l => l.2)) with
      | .error e => .error e
      | .ok w1 => .ok (w1, (lowerAll x r g inputs).2, (lowerAll x r g inputs).1.map (fun l => l.1)) := by
  induction inputs generalizing w g with
  | nil => simp [lowerInputs, lowerAll, genTemps]
  | cons input rest ih =>
    simp only [lowerInputs, lowerAll, List.flatMap_cons, List.map_cons]
    rw [genTemps_append]
    cases ht : genTemps x w _ with
    | error e => rfl
    | ok w1 =>
      simp only
      rw [genTemps_ok_flatMap x _ w w1 ht, printed_append, ih]
      cases genTemps x _ _ <;> rfl

/-- The method `genResource` in closed form. -/
theorem genResource_eq (x : Externals) (w : Buffer) (g : generator) (r : Resource) :
    genResource x w g r =
      match genTemps x w ((lowerAll x r g r.Inputs).1.flatMap (fun l => l.2)) with
      | .error e => .error e
      | .ok w1 =>
        .ok (w1 ++ constructionCall x r ((lowerAll x r g r.Inputs).1.map (fun l => l.1))
              ++ failureCheck,
          printed x (lowerAll x r g r.Inputs).2 []
            (constructionCall x r ((lowerAll x r g r.Inputs).1.map (fun l => l.1))
              ++ failureCheck)) := by
  unfold genResource
  simp only [lowerInputs_eq]
  cases genTemps x w _ with
  | error e => rfl
  | ok w1 =>
    simp only [← printed_append x _ w1]
    simp only [constructionCall, failureCheck, Fgenf, genFields_eq, List.append_assoc,
      List.cons_append, List.nil_append]
    cases hl : (lowerAll x r g r.Inputs).1.map (fun l => l.1) with
    | nil => simp
    | cons a rest => simp

/-- Calls that open and close no bracket do not end a statement that has one open. -/
theorem restAfterStatement_skip (p l : Buffer) (d : Int) (hd : 0 < d)
    (hp : ∀ c ∈ p, c.depth = 0) :
    restAfterStatement d (p ++ l) = restAfterStatement d l := by
  induction p with
  | nil => rfl
  | cons c rest ih =>
    have hc : c.depth = 0 := hp c (by simp)
    have hnot : ¬ (d + 0 ≤ 0) := by omega
    simp only [List.cons_append, restAfterStatement, hc, hnot, if_false]
    simpa using ih (fun c h => hp c (by simp [h]))

/-- Calls that do not bind `err` need no check. -/
theorem allFallibleChecked_skip (p l : Buffer) (hp : ∀ c ∈ p, c.bindsErr = false) :
    allFallibleChecked (p ++ l) = allFallibleChecked l := by
  induction p with
  | nil => rfl
  | cons c rest ih =>
    simp only [List.cons_append, allFallibleChecked, hp c (by simp), Bool.not_false,
      Bool.true_or, Bool.true_and]
    exact ih (fun c h => hp c (by simp [h]))

/-- A call that opens its argument structure, the fields, the closing line and the
failure check form a checked sequence. -/
theorem construction_checked_aux (o a : Chunk) (F : Buffer) (ho : o.depth = 1)
    (ha : a.depth = 1) (hb : a.bindsErr = false)
    (hF : ∀ c ∈ F, c.depth = 0 ∧ c.bindsErr = false) :
    allFallibleChecked (o :: a :: (F ++ ⟨"\x7d)\n", []⟩ :: failureCheck)) = true := by
  have e1 : followedByCheck (o :: a :: (F ++ ⟨"\x7d)\n", []⟩ :: failureCheck)) = true := by
    unfold followedByCheck
    rw [restAfterStatement, ho, if_neg (by decide), restAfterStatement, ha, if_neg (by decide),
      restAfterStatement_skip _ _ _ (by decide) (fun c h => (hF c h).1)]
    rfl
  have e2 : allFallibleChecked (a :: (F ++ ⟨"\x7d)\n", []⟩ :: failureCheck)) = true := by
    rw [allFallibleChecked, hb, allFallibleChecked_skip _ _ (fun c h => (hF c h).2)]
    rfl
  rw [allFallibleChecked, e1, e2]
  simp

/-- The construction call followed by the failure check is checked. -/
theorem constructionCall_checked (x : Externals) (r : Resource) (fields : List Attribute) :
    allFallibleChecked (constructionCall x r fields ++ failureCheck) = true := by
  cases fields with
  | nil => rfl
  | cons a rest =>
    have hF : ∀ c ∈ (a :: rest).flatMap (fun a : Attribute =>
        ([⟨"%s: ", [.str (Title x a.Name)]⟩, ⟨"%.v,\n", [.expr a.Value]⟩] : Buffer)),
        c.depth = 0 ∧ c.bindsErr = false := by
      intro c hc
      simp only [List.mem_flatMap, List.mem_cons, List.mem_singleton, List.not_mem_nil,
        or_false] at hc
      obtain ⟨b, _, hb | hb⟩ := hc <;> subst hb <;> exact ⟨rfl, rfl⟩
    have h := construction_checked_aux
      ⟨"%s, err := %s.New%s(ctx, \"%[1]s\", ",
        [.str r.name, .str r.decomposed.2.1, .str r.decomposed.2.2]⟩
      ⟨"&%s.%sArgs\x7b\n", [.str r.decomposed.2.1, .str r.decomposed.2.2]⟩ _ rfl rfl rfl hF
    simpa only [constructionCall, List.isEmpty_cons, Bool.false_eq_true, if_false,
      List.cons_append, List.append_assoc, List.nil_append] using h

/-- Temps followed by a checked tail form a checked sequence. -/
theorem checked_after_temps (x : Externals) (ts : List Temp) (w wa tail w1 : Buffer)
    (ht : genTemps x w ts = .ok wa) (h : wa ++ tail = w1)
    (htail : allFallibleChecked tail = true) :
    ∃ out, w1 = w ++ out ∧ allFallibleChecked out = true :=
  ⟨ts.flatMap (tempGroup x) ++ tail,
    by rw [← h, genTemps_ok_flatMap x ts w wa ht, List.append_assoc],
    allFallibleChecked_append _ _ (temps_checked x ts) htail⟩

/-- C4: in the statements `genNode` writes for a node, every statement that binds `err` is
directly followed by the failure check `if err != nil { return err }`; and `genNode` does
write them whenever each `jsonTemp` of the node has a first argument. -/
theorem genNode_fallible_calls_checked (x : Externals) (w : Buffer) (g : generator) (n : Node) :
    (∀ w1 g1, genNode x w g n = .ok (w1, g1) →
      ∃ out, w1 = w ++ out ∧ allFallibleChecked out = true) ∧
    ((∀ t ∈ nodeTemps x g n, t.hasFirstArg = true) → ∃ w1 g1, genNode x w g n = .ok (w1, g1)) := by
  cases n with
  | resource r =>
    simp only [genNode, nodeTemps, genResource_eq]
    constructor
    · intro w1 g1 h
      cases ht : genTemps x w ((lowerAll x r g r.Inputs).1.flatMap (fun l => l.2)) with
      | error e => simp [ht] at h
      | ok wa =>
        simp only [ht, Except.ok.injEq, Prod.mk.injEq, List.append_assoc] at h
        exact checked_after_temps x _ w wa _ w1 ht h.1 (constructionCall_checked x r _)
    · intro hwf
      rw [genTemps_total x _ w hwf]
      exact ⟨_, _, rfl⟩
  | outputVariable v =>
    simp only [genNode, nodeTemps, genOutputAssignment, lower]
    constructor
    · intro w1 g1 h
      cases ht : genTemps x w (x.lowerExpression g v.Value v.typ false).2.1 with
      | error e => simp [ht] at h
      | ok wa =>
        simp only [ht, Except.ok.injEq, Prod.mk.injEq, Fgenf] at h
        exact checked_after_temps x _ w wa _ w1 ht h.1 rfl
    · intro hwf
      rw [genTemps_total x _ w hwf]
      exact ⟨_, _, rfl⟩
  | localVariable v =>
    simp only [genNode, nodeTemps, genLocalVariable, lower]
    constructor
    · intro w1 g1 h
      cases ht : genTemps x w (x.lowerExpression g v.Value v.typ false).2.1 with
      | error e => simp [ht] at h
      | ok wa =>
        simp only [ht] at h
        cases he : (x.lowerExpression g v.Value v.typ false).1 with
        | functionCall name args =>
          simp only [he] at h
          by_cases hn : name = Invoke
          · simp only [hn, if_true, Except.ok.injEq, Prod.mk.injEq, Fgenf, List.append_assoc,
              List.cons_append, List.nil_append] at h
            exact checked_after_temps x _ w wa _ w1 ht h.1 rfl
          · simp only [hn, if_false, Except.ok.injEq, Prod.mk.injEq] at h
            exact checked_after_temps x _ w wa [] w1 ht (by simpa using h.1) rfl
        | literal _ | scopeTraversal _ | objectCons _ | conditional _ _ _ =>
          simp only [he, Except.ok.injEq, Prod.mk.injEq, Fgenf] at h
          exact checked_after_temps x _ w wa _ w1 ht h.1 rfl
    · intro hwf
      rw [genTemps_total x _ w hwf]
      simp only
      split
      · split <;> exact ⟨_, _, rfl⟩
      · exact ⟨_, _, rfl⟩
  | configVariable name =>
    simp only [genNode]
    exact ⟨fun w1 g1 h => ⟨[], by simp at h; simp [h.1], rfl⟩, fun _ => ⟨_, _, rfl⟩⟩

/-- The site resource: its statements pass the check, and they are written. -/
theorem genNode_fallible_calls_checked_witness :
    (∃ out, sampleSiteOut = [] ++ out ∧ allFallibleChecked out = true) ∧
    ∃ w1 g1, genNode sampleExternals [] sampleGenerator (.resource sampleSite) = .ok (w1, g1) :=
  ⟨(genNode_fallible_calls_checked sampleExternals [] sampleGenerator (.resource sampleSite)).1
      sampleSiteOut ⟨[], ⟨1⟩, ⟨1⟩⟩ rfl,
    (genNode_fallible_calls_checked sampleExternals [] sampleGenerator (.resource sampleSite)).2
      (by decide)⟩

/-! ## Resources -/

/-- Each entry of `lowerAll` is the lowering of the input at its position, with the input
flag set. -/
theorem lowerAll_flagged (x : Externals) (r : Resource) (inputs : List Attribute) (g : generator) :
    List.Forall₂
      (fun (input : Attribute) (l : Attribute × List Temp) =>
        l.1.Name = input.Name ∧
        ∃ g0 typ, l.1.Value = (x.lowerExpression g0 input.Value typ true).1 ∧
          l.2 = (x.lowerExpression g0 input.Value typ true).2.1)
      inputs (lowerAll x r g inputs).1 := by
  induction inputs generalizing g with
  | nil => exact List.Forall₂.nil
  | cons input rest ih =>
    simp only [lowerAll]
    exact List.Forall₂.cons ⟨rfl, _, _, rfl, rfl⟩ (ih _)

/-- C5: `genResource` writes the temp statements of the first input, then those of the
second, and so on (each input lowered with the input flag set), then the construction call
bound to the resource's name with one field per input, in input order, valued by the
lowered expression, and then the failure check, so every temp statement comes before the
construction call; and it does write them whenever each `jsonTemp` of the resource has a
first argument.  The generator it returns has seen the lowering of the inputs and the
printing of every call. -/
theorem genResource_temps_before_construction (x : Externals) (w : Buffer) (g : generator)
    (r : Resource) :
    (∀ w1 g1, genResource x w g r = .ok (w1, g1) →
      w1 = w ++ (lowerAll x r g r.Inputs).1.flatMap (fun l => l.2.flatMap (tempGroup x))
            ++ constructionCall x r ((lowerAll x r g r.Inputs).1.map (fun l => l.1))
            ++ failureCheck ∧
      g1 = printed x (lowerAll x r g r.Inputs).2 []
            (constructionCall x r ((lowerAll x r g r.Inputs).1.map (fun l => l.1))
              ++ failureCheck)) ∧
    ((∀ t ∈ nodeTemps x g (.resource r), t.hasFirstArg = true) →
      ∃ w1 g1, genResource x w g r = .ok (w1, g1)) ∧
    List.Forall₂
      (fun (input : Attribute) (l : Attribute × List Temp) =>
        l.1.Name = input.Name ∧
        ∃ g0 typ, l.1.Value = (x.lowerExpression g0 input.Value typ true).1 ∧
          l.2 = (x.lowerExpression g0 input.Value typ true).2.1)
      r.Inputs (lowerAll x r g r.Inputs).1 := by
  refine ⟨?_, ?_, lowerAll_flagged x r r.Inputs g⟩
  · intro w1 g1 h
    rw [genResource_eq] at h
    cases ht : genTemps x w ((lowerAll x r g r.Inputs).1.flatMap (fun l => l.2)) with
    | error e => simp [ht] at h
    | ok wa =>
      simp only [ht, Except.ok.injEq, Prod.mk.injEq] at h
      rw [← h.1, ← h.2, genTemps_ok_flatMap x _ w wa ht, List.flatMap_assoc]
      exact ⟨rfl, rfl⟩
  · intro hwf
    have hwf1 : ∀ t ∈ (lowerAll x r g r.Inputs).1.flatMap (fun l => l.2),
        t.hasFirstArg = true := hwf
    rw [genResource_eq, genTemps_total x _ w hwf1]
    exact ⟨_, _, rfl⟩

set_option maxRecDepth 100000 in
/-- The site resource: the group of `json0`, the group of `tmp0`, then the construction
call over the three lowered inputs and the failure check. -/
theorem genResource_temps_before_construction_witness :
    (sampleSiteOut =
        [] ++ (lowerAll sampleExternals sampleSite sampleGenerator sampleSite.Inputs).1.flatMap
              (fun l => l.2.flatMap (tempGroup sampleExternals))
            ++ constructionCall sampleExternals sampleSite
              ((lowerAll sampleExternals sampleSite sampleGenerator sampleSite.Inputs).1.map
                (fun l => l.1))
            ++ failureCheck ∧
      (⟨[], ⟨1⟩, ⟨1⟩⟩ : generator)
        = printed sampleExternals
            (lowerAll sampleExternals sampleSite sampleGenerator sampleSite.Inputs).2 []
            (constructionCall sampleExternals sampleSite
              ((lowerAll sampleExternals sampleSite sampleGenerator sampleSite.Inputs).1.map
                (fun l => l.1))
              ++ failureCheck)) ∧
    (∃ w1 g1, genResource sampleExternals [] sampleGenerator sampleSite = .ok (w1, g1)) ∧
    Buffer.text sampleExternals sampleSiteOut =
      "tmpJSON0, err := json.Marshal(obj)\nif err != nil \x7b\nreturn err\n\x7d\n"
        ++ "json0 := string(tmpJSON0)\n"
        ++ "var tmp0 string\nif isPublic \x7b\ntmp0 = \"public-read\"\n\x7d else \x7b\n"
        ++ "tmp0 = \"private\"\n\x7d\n"
        ++ "site, err := s3.NewBucketObject(ctx, \"site\", &s3.BucketObjectArgs\x7b\n"
        ++ "Policy: json0,\nAcl: tmp0,\nBucket: bucket,\n\x7d)\n"
        ++ "if err != nil \x7b\nreturn err\n\x7d\n" :=
  ⟨(genResource_temps_before_construction sampleExternals [] sampleGenerator sampleSite).1
      sampleSiteOut ⟨[], ⟨1⟩, ⟨1⟩⟩ rfl,
    (genResource_temps_before_construction sampleExternals [] sampleGenerator sampleSite).2.1
      (by decide),
    by decide⟩

/-! ## Local variables -/

/-- C1 (fails on the code): when the lowered value of a local variable is a function call
whose name is not `invoke`, `genLocalVariable` writes the temps and then nothing: no
binding of the variable's name is emitted. -/
theorem genLocalVariable_other_call_emits_no_binding (x : Externals) (w : Buffer)
    (g : generator) (v : LocalVariable) (name : String) (args : List Expression)
    (h : (x.lowerExpression g v.Value v.typ false).1 = .functionCall name args)
    (hn : name ≠ Invoke) :
    genLocalVariable x w g v =
      match genTemps x w (x.lowerExpression g v.Value v.typ false).2.1 with
      | .error e => .error e
      | .ok w1 => .ok (w1, printed x (lower x g v.Value v.typ false).2.2 w w1) := by
  unfold genLocalVariable
  simp only [lower, h]
  cases genTemps x w (x.lowerExpression g v.Value v.typ false).2.1 with
  | error e => rfl
  | ok w1 => simp [hn]

/-- The local variable `asset = fileAsset("index.html")` produces an empty statement
group. -/
theorem genLocalVariable_other_call_witness :
    genLocalVariable sampleExternals [] sampleGenerator sampleAssetLocal
      = .ok ([], sampleGenerator) :=
  genLocalVariable_other_call_emits_no_binding sampleExternals [] sampleGenerator
    sampleAssetLocal "fileAsset" [.literal "\"index.html\""] rfl (by decide)

/-! ## Import collection -/

set_option maxRecDepth 100000 in
/-- C2 (fails on the code): the package `aws` is present in the metadata, with major
version `2 ^ 64 - 1`, and `collectImports` still panics with the message that no package
information was found for the resource. -/
theorem collectImports_present_package_aborts (x : Externals) :
    (∃ p ∈ samplePackagesMax, p.Name = sampleBucket.decomposed.1) ∧
    collectImports x ⟨[.resource sampleBucket], samplePackagesMax⟩ =
      .error (.errorf ("could not find package information for resource with type token:\n\n"
        ++ sampleBucket.Token)) :=
  ⟨⟨_, List.mem_singleton.mpr rfl, rfl⟩, rfl⟩

set_option maxRecDepth 100000 in
/-- C3 (fails on the code): for the package `aws` at major version `2 ^ 63`, which is
greater than 1, `collectImports` adds the import path without a version segment. -/
theorem collectImports_huge_version_unqualified :
    (1 : Nat) < 9223372036854775808 ∧
    collectImports sampleExternals ⟨[.resource sampleBucket], samplePackagesHuge⟩ =
      .ok ([], ["github.com/pulumi/pulumi-aws/sdk/go/aws/s3"]) :=
  ⟨by decide, rfl⟩

/-- Below `2 ^ 63` the conversion `int(v)` keeps the value. -/
theorem intOfUint64_small (v : Nat) (h : v < 2 ^ 63) : intOfUint64 v = Int.ofNat v := by
  unfold intOfUint64
  have hm : v % 2 ^ 64 = v := Nat.mod_eq_of_lt (by omega)
  simp only [hm]
  rw [if_pos h]

/-- Below `2 ^ 63` the import path carries the segment `/v<major>` exactly when the major
version exceeds 1. -/
theorem providerImport_small (pkg mod : String) (v : Nat) (h : v < 2 ^ 63) :
    providerImport pkg (intOfUint64 v) mod =
      "github.com/pulumi/pulumi-" ++ pkg ++ "/sdk" ++ (if 1 < v then "/v" ++ toString v else "")
        ++ "/go/" ++ pkg ++ "/" ++ mod := by
  rw [intOfUint64_small v h]
  unfold providerImport
  by_cases hv : 1 < v
  · have h1 : ¬ (Int.ofNat v ≤ 1) := by simp; omega
    simp only [h1, hv, if_true, if_false]
    simp [Sprintf, String.ext_iff, sprintfGo, argText]
    rfl
  · have h1 : Int.ofNat v ≤ 1 := by simp; omega
    simp only [h1, hv, if_true, if_false]
    simp [Sprintf, String.ext_iff, sprintfGo, argText]

/-- The members after `Add`. -/
theorem StringSet.mem_Add (s : StringSet) (v p : String) :
    p ∈ s.Add v ↔ p ∈ s ∨ p = v := by
  unfold StringSet.Add
  by_cases h : v ∈ s
  · simp only [h, if_true]
    constructor
    · exact Or.inl
    · rintro (hp | hp)
      · exact hp
      · rw [hp]; exact h
  · simp [h]

/-- The method `Add` keeps the set free of repetitions. -/
theorem StringSet.nodup_Add (s : StringSet) (v : String) (h : s.Nodup) : (s.Add v).Nodup := by
  unfold StringSet.Add
  by_cases hv : v ∈ s
  · simpa [hv] using h
  · simp only [hv, if_false]
    exact List.Nodup.append h (List.nodup_singleton v) (by simpa using hv)

/-- The invariant of the loop of `collectImports` on the provider set. -/
theorem collectLoop_providers (x : Externals) (program : Program) (nodes : List Node) :
    ∀ (std0 pul0 std pul : StringSet),
      collectLoop x program std0 pul0 nodes = .ok (std, pul) → pul0.Nodup →
      pul.Nodup ∧
      (∀ p, p ∈ pul ↔ p ∈ pul0 ∨ ∃ r, Node.resource r ∈ nodes ∧ resourceImport program r = some p) ∧
      (∀ r, Node.resource r ∈ nodes → ∃ p, resourceImport program r = some p) := by
  induction nodes with
  | nil =>
    intro std0 pul0 std pul h hn
    simp only [collectLoop, Except.ok.injEq, Prod.mk.injEq] at h
    rw [← h.2]
    simp [hn]
  | cons n rest ih =>
    intro std0 pul0 std pul h hn
    simp only [collectLoop] at h
    cases hc : collectResource program pul0 n with
    | error e => simp [hc] at h
    | ok pul1 =>
      simp only [hc] at h
      by_cases hd : (x.visitExpressions n).2.length = 0
      · simp only [hd, if_true] at h
        cases n with
        | resource r =>
          simp only [collectResource] at hc
          cases hv : findVersion r.decomposed.1 program.Packages with
          | error e => simp [hv] at hc
          | ok version =>
            simp only [hv] at hc
            by_cases hm : version = -1
            · simp [hm] at hc
            · simp only [hm, if_false, Except.ok.injEq] at hc
              have hri : resourceImport program r
                  = some (providerImport r.decomposed.1 version r.decomposed.2.1) := by
                simp [resourceImport, hv, hm]
              obtain ⟨h1, h2, h3⟩ := ih _ pul1 std pul h (hc ▸ StringSet.nodup_Add _ _ hn)
              refine ⟨h1, ?_, ?_⟩
              · intro p
                rw [h2 p, ← hc, StringSet.mem_Add]
                constructor
                · rintro ((hp | hp) | ⟨r1, hr1, hp⟩)
                  · exact Or.inl hp
                  · exact Or.inr ⟨r, by simp, by rw [hri, hp]⟩
                  · exact Or.inr ⟨r1, by simp [hr1], hp⟩
                · rintro (hp | ⟨r1, hr1, hp⟩)
                  · exact Or.inl (Or.inl hp)
                  · simp only [List.mem_cons, Node.resource.injEq] at hr1
                    cases hr1 with
                    | inl he =>
                      rw [he, hri] at hp
                      exact Or.inl (Or.inr (Option.some.inj hp).symm)
                    | inr hr => exact Or.inr ⟨r1, hr, hp⟩
              · intro r1 hr1
                simp only [List.mem_cons, Node.resource.injEq] at hr1
                cases hr1 with
                | inl he => exact ⟨_, he ▸ hri⟩
                | inr hr => exact h3 r1 hr
        | outputVariable v =>
          simp only [collectResource, Except.ok.injEq] at hc
          obtain ⟨h1, h2, h3⟩ := ih _ pul1 std pul h (hc ▸ hn)
          subst hc
          exact ⟨h1, by simpa using h2, by simpa using h3⟩
        | localVariable v =>
          simp only [collectResource, Except.ok.injEq] at hc
          obtain ⟨h1, h2, h3⟩ := ih _ pul1 std pul h (hc ▸ hn)
          subst hc
          exact ⟨h1, by simpa using h2, by simpa using h3⟩
        | configVariable name =>
          simp only [collectResource, Except.ok.injEq] at hc
          obtain ⟨h1, h2, h3⟩ := ih _ pul1 std pul h (hc ▸ hn)
          subst hc
          exact ⟨h1, by simpa using h2, by simpa using h3⟩
      · simp [hd] at h

/-- C10: when `collectImports` succeeds, its provider set holds the import path of every
resource node of the program, holds nothing but such paths, and holds each path once. -/
theorem collectImports_provider_set (x : Externals) (program : Program)
    (stdImports pulumiImports : StringSet)
    (h : collectImports x program = .ok (stdImports, pulumiImports)) :
    (∀ r, Node.resource r ∈ program.Nodes →
      ∃ p, resourceImport program r = some p ∧ p ∈ pulumiImports) ∧
    (∀ p ∈ pulumiImports, ∃ r, Node.resource r ∈ program.Nodes ∧ resourceImport program r = some p) ∧
    pulumiImports.Nodup := by
  obtain ⟨h1, h2, h3⟩ := collectLoop_providers x program program.Nodes [] [] stdImports
    pulumiImports h List.nodup_nil
  refine ⟨?_, ?_, h1⟩
  · intro r hr
    obtain ⟨p, hp⟩ := h3 r hr
    exact ⟨p, hp, (h2 p).mpr (Or.inr ⟨r, hr, hp⟩)⟩
  · intro p hp
    simpa using (h2 p).mp hp

/-- The sample program: both resources live in `aws/s3` at major version 2, and the
provider set holds that one path. -/
theorem collectImports_provider_set_witness :
    (∀ r, Node.resource r ∈ sampleProgram.Nodes →
      ∃ p, resourceImport sampleProgram r = some p
        ∧ p ∈ ["github.com/pulumi/pulumi-aws/sdk/v2/go/aws/s3"]) ∧
    (∀ p ∈ ["github.com/pulumi/pulumi-aws/sdk/v2/go/aws/s3"],
      ∃ r, Node.resource r ∈ sampleProgram.Nodes ∧ resourceImport sampleProgram r = some p) ∧
    ["github.com/pulumi/pulumi-aws/sdk/v2/go/aws/s3"].Nodup :=
  collectImports_provider_set sampleExternals sampleProgram ["encoding/json"]
    ["github.com/pulumi/pulumi-aws/sdk/v2/go/aws/s3"] rfl

/-! ## The preamble -/

/-- The text of an appended writer. -/
theorem Buffer.text_append (x : Externals) (a b : Buffer) :
    Buffer.text x (a ++ b) = Buffer.text x a ++ Buffer.text x b := by
  simp [Buffer.text, String.ext_iff]

/-- The import loop of `genPreamble` appends one call per import. -/
theorem genImportLines_eq (l : List String) (w : Buffer) :
    genImportLines w l = w ++ l.map (fun imp => (⟨"\"%s\"\n", [.str imp]⟩ : Chunk)) := by
  induction l generalizing w with
  | nil => simp [genImportLines]
  | cons imp rest ih => simp [genImportLines, Fgenf, ih]

/-- The import loop of `genPreamble` writes one quoted line per import. -/
theorem text_import_lines (x : Externals) (l : List String) :
    Buffer.text x (l.map (fun imp => (⟨"\"%s\"\n", [.str imp]⟩ : Chunk))) = importLines l := by
  induction l with
  | nil => rfl
  | cons imp rest ih =>
    rw [List.map_cons, ← List.singleton_append, Buffer.text_append, ih]
    simp [importLines, Buffer.text, Chunk.chars, String.ext_iff, sprintfGo, argText]

/-- The sorted values are in ascending order. -/
theorem StringSet.sorted_SortedValues (s : StringSet) :
    List.Sorted (fun a b => a ≤ b) s.SortedValues :=
  List.sorted_insertionSort (fun a b : String => a ≤ b) s

/-- The sorted values are the members of the set. -/
theorem StringSet.mem_SortedValues (s : StringSet) (p : String) :
    p ∈ s.SortedValues ↔ p ∈ s :=
  (List.perm_insertionSort (fun a b : String => a ≤ b) s).mem_iff

/-- The sorted values of a set without repetition have none. -/
theorem StringSet.nodup_SortedValues (s : StringSet) (h : s.Nodup) : s.SortedValues.Nodup :=
  (List.perm_insertionSort (fun a b : String => a ≤ b) s).nodup_iff.mpr h

/-- The callback of the expression traversal keeps the set free of repetitions. -/
theorem visitCall_nodup (x : Externals) (visited : List Expression) (s : StringSet)
    (h : s.Nodup) : (visited.foldl (visitCall x) s).Nodup := by
  induction visited generalizing s with
  | nil => exact h
  | cons e rest ih =>
    rw [List.foldl_cons]
    apply ih
    have hadd : ∀ (l : List String) (s : StringSet), s.Nodup →
        (l.foldl StringSet.Add s).Nodup := by
      intro l
      induction l with
      | nil => intro s hs; exact hs
      | cons v vs ihl => intro s hs; exact ihl _ (StringSet.nodup_Add s v hs)
    cases e with
    | functionCall name args => exact hadd _ s h
    | literal _ | scopeTraversal _ | objectCons _ | conditional _ _ _ => exact h

/-- The loop of `collectImports` keeps the standard-library set free of repetitions. -/
theorem collectLoop_std_nodup (x : Externals) (program : Program) (nodes : List Node) :
    ∀ (std0 pul0 std pul : StringSet),
      collectLoop x program std0 pul0 nodes = .ok (std, pul) → std0.Nodup → std.Nodup := by
  induction nodes with
  | nil =>
    intro std0 pul0 std pul h hn
    simp only [collectLoop, Except.ok.injEq, Prod.mk.injEq] at h
    rw [← h.1]
    exact hn
  | cons n rest ih =>
    intro std0 pul0 std pul h hn
    simp only [collectLoop] at h
    cases hc : collectResource program pul0 n with
    | error e => simp [hc] at h
    | ok pul1 =>
      simp only [hc] at h
      by_cases hd : (x.visitExpressions n).2.length = 0
      · simp only [hd, if_true] at h
        exact ih _ _ _ _ h (visitCall_nodup x _ _ hn)
      · simp [hd] at h

/-- C11: when import collection succeeds, `genPreamble` writes `package main`, then
the import block: `import (`, one quoted line per standard-library import in ascending
order, an empty line, the fixed line of the Pulumi SDK, one quoted line per
provider import in ascending order and `)`; then `func main() {` and the opening of
the `pulumi.Run` callback.  Each group lists the members of its set, each once. -/
theorem genPreamble_import_block (x : Externals) (w : Buffer) (program : Program)
    (stdImports pulumiImports : StringSet)
    (h : collectImports x program = .ok (stdImports, pulumiImports)) :
    ∃ out, genPreamble x w program = .ok (w ++ out) ∧
      Buffer.text x out =
        "package main\n\n" ++ "import (\n"
          ++ importLines stdImports.SortedValues
          ++ "\n" ++ "\"github.com/pulumi/pulumi/sdk/v2/go/pulumi\"\n"
          ++ importLines pulumiImports.SortedValues
          ++ ")\n" ++ "func main() \x7b\n" ++ "pulumi.Run(func(ctx *pulumi.Context) error \x7b\n" ∧
      List.Sorted (fun a b => a ≤ b) stdImports.SortedValues ∧
      List.Sorted (fun a b => a ≤ b) pulumiImports.SortedValues ∧
      stdImports.SortedValues.Nodup ∧ pulumiImports.SortedValues.Nodup ∧
      (∀ p, p ∈ stdImports.SortedValues ↔ p ∈ stdImports) ∧
      (∀ p, p ∈ pulumiImports.SortedValues ↔ p ∈ pulumiImports) := by
  have hstd : stdImports.Nodup :=
    collectLoop_std_nodup x program program.Nodes [] [] stdImports pulumiImports h List.nodup_nil
  have hpul : pulumiImports.Nodup :=
    (collectLoop_providers x program program.Nodes [] [] stdImports pulumiImports h
      List.nodup_nil).1
  refine ⟨[⟨"%s", [.str "package main\n\n"]⟩, ⟨"import (\n", []⟩]
      ++ stdImports.SortedValues.map (fun imp => (⟨"\"%s\"\n", [.str imp]⟩ : Chunk))
      ++ [⟨"\n", []⟩, ⟨"\"github.com/pulumi/pulumi/sdk/v2/go/pulumi\"\n", []⟩]
      ++ pulumiImports.SortedValues.map (fun imp => (⟨"\"%s\"\n", [.str imp]⟩ : Chunk))
      ++ [⟨")\n", []⟩, ⟨"func main() \x7b\n", []⟩,
          ⟨"pulumi.Run(func(ctx *pulumi.Context) error \x7b\n", []⟩],
    ?_, ?_, StringSet.sorted_SortedValues _, StringSet.sorted_SortedValues _,
    StringSet.nodup_SortedValues _ hstd, StringSet.nodup_SortedValues _ hpul,
    StringSet.mem_SortedValues _, StringSet.mem_SortedValues _⟩
  · simp only [genPreamble, h, Fprint, Fgenf, genImportLines_eq, List.append_assoc,
      List.cons_append, List.nil_append]
  · simp only [Buffer.text_append, text_import_lines]
    have e1 : Buffer.text x [⟨"%s", [.str "package main\n\n"]⟩, ⟨"import (\n", []⟩]
        = "package main\n\n" ++ "import (\n" := rfl
    have e2 : Buffer.text x [⟨"\n", []⟩, ⟨"\"github.com/pulumi/pulumi/sdk/v2/go/pulumi\"\n", []⟩]
        = "\n" ++ "\"github.com/pulumi/pulumi/sdk/v2/go/pulumi\"\n" := rfl
    have e3 : Buffer.text x [⟨")\n", []⟩, ⟨"func main() \x7b\n", []⟩,
          ⟨"pulumi.Run(func(ctx *pulumi.Context) error \x7b\n", []⟩]
        = ")\n" ++ "func main() \x7b\n" ++ "pulumi.Run(func(ctx *pulumi.Context) error \x7b\n" :=
      rfl
    rw [e1, e2, e3]
    simp only [String.append_assoc]

set_option maxRecDepth 100000 in
/-- The sample program: one standard-library import and one provider import. -/
theorem genPreamble_import_block_witness :
    ∃ out, genPreamble sampleExternals [] sampleProgram = .ok ([] ++ out) ∧
      Buffer.text sampleExternals out =
        "package main\n\n" ++ "import (\n"
          ++ importLines (StringSet.SortedValues ["encoding/json"])
          ++ "\n" ++ "\"github.com/pulumi/pulumi/sdk/v2/go/pulumi\"\n"
          ++ importLines (StringSet.SortedValues ["github.com/pulumi/pulumi-aws/sdk/v2/go/aws/s3"])
          ++ ")\n" ++ "func main() \x7b\n" ++ "pulumi.Run(func(ctx *pulumi.Context) error \x7b\n" ∧
      List.Sorted (fun a b => a ≤ b) (StringSet.SortedValues ["encoding/json"]) ∧
      List.Sorted (fun a b => a ≤ b)
        (StringSet.SortedValues ["github.com/pulumi/pulumi-aws/sdk/v2/go/aws/s3"]) ∧
      (StringSet.SortedValues ["encoding/json"]).Nodup ∧
      (StringSet.SortedValues ["github.com/pulumi/pulumi-aws/sdk/v2/go/aws/s3"]).Nodup ∧
      (∀ p, p ∈ StringSet.SortedValues ["encoding/json"] ↔ p ∈ ["encoding/json"]) ∧
      (∀ p, p ∈ StringSet.SortedValues ["github.com/pulumi/pulumi-aws/sdk/v2/go/aws/s3"]
        ↔ p ∈ ["github.com/pulumi/pulumi-aws/sdk/v2/go/aws/s3"]) :=
  genPreamble_import_block sampleExternals [] sampleProgram ["encoding/json"]
    ["github.com/pulumi/pulumi-aws/sdk/v2/go/aws/s3"] rfl

/-! ## Output variables -/

/-- C12: `genOutputAssignment` lowers the value with the input flag false, writes the
groups of the temps in order and then, as the last statement, the one export
`ctx.Export("<name>", <lowered expression>)`; it returns whenever each `jsonTemp` has a
first argument, and for a lowering that yields one `ternaryTemp` the group is the
declaration, the two-branch assignment and the export. -/
theorem genOutputAssignment_export_last (x : Externals) (w : Buffer) (g : generator)
    (v : OutputVariable) :
    (∀ w1 g1, genOutputAssignment x w g v = .ok (w1, g1) →
      w1 = w ++ (x.lowerExpression g v.Value v.typ false).2.1.flatMap (tempGroup x)
            ++ [⟨"ctx.Export(\"%s\", %.3v)\n",
                [.str v.name, .expr (x.lowerExpression g v.Value v.typ false).1]⟩] ∧
      g1 = printed x (lower x g v.Value v.typ false).2.2 []
            ((x.lowerExpression g v.Value v.typ false).2.1.flatMap (tempGroup x)
              ++ [⟨"ctx.Export(\"%s\", %.3v)\n",
                  [.str v.name, .expr (x.lowerExpression g v.Value v.typ false).1]⟩])) ∧
    ((∀ t ∈ (x.lowerExpression g v.Value v.typ false).2.1, t.hasFirstArg = true) →
      ∃ w1 g1, genOutputAssignment x w g v = .ok (w1, g1)) ∧
    Chunk.text x ⟨"ctx.Export(\"%s\", %.3v)\n",
        [.str v.name, .expr (x.lowerExpression g v.Value v.typ false).1]⟩
      = "ctx.Export(\"" ++ v.name ++ "\", "
          ++ x.genExpression 3 (x.lowerExpression g v.Value v.typ false).1 ++ ")\n" ∧
    (∀ t : ternaryTemp, (x.lowerExpression g v.Value v.typ false).2.1 = [.ternary t] →
      genOutputAssignment x w g v =
        .ok (w ++ [⟨"var %s %s\n",
                    [.str t.Name, .str (x.argumentTypeName t.Value.TrueResult t.Type false)]⟩,
                   ⟨"if %.v \x7b\n", [.expr t.Value.Condition]⟩,
                   ⟨"%s = %.v\n", [.str t.Name, .expr t.Value.TrueResult]⟩,
                   ⟨"\x7d else \x7b\n", []⟩,
                   ⟨"%s = %.v\n", [.str t.Name, .expr t.Value.FalseResult]⟩,
                   ⟨"\x7d\n", []⟩,
                   ⟨"ctx.Export(\"%s\", %.3v)\n",
                    [.str v.name, .expr (x.lowerExpression g v.Value v.typ false).1]⟩],
             printed x (lower x g v.Value v.typ false).2.2 []
               [⟨"var %s %s\n",
                  [.str t.Name, .str (x.argumentTypeName t.Value.TrueResult t.Type false)]⟩,
                ⟨"if %.v \x7b\n", [.expr t.Value.Condition]⟩,
                ⟨"%s = %.v\n", [.str t.Name, .expr t.Value.TrueResult]⟩,
                ⟨"\x7d else \x7b\n", []⟩,
                ⟨"%s = %.v\n", [.str t.Name, .expr t.Value.FalseResult]⟩,
                ⟨"\x7d\n", []⟩,
                ⟨"ctx.Export(\"%s\", %.3v)\n",
                  [.str v.name, .expr (x.lowerExpression g v.Value v.typ false).1]⟩])) := by
  refine ⟨?_, ?_, ?_, ?_⟩
  · intro w1 g1 h
    simp only [genOutputAssignment, lower] at h
    cases ht : genTemps x w (x.lowerExpression g v.Value v.typ false).2.1 with
    | error e => simp [ht] at h
    | ok wa =>
      simp only [ht, Except.ok.injEq, Prod.mk.injEq, Fgenf] at h
      rw [← h.1, ← h.2, genTemps_ok_flatMap x _ w wa ht, List.append_assoc, printed_append]
      exact ⟨rfl, rfl⟩
  · intro hwf
    simp only [genOutputAssignment, lower]
    rw [genTemps_total x _ w hwf]
    exact ⟨_, _, rfl⟩
  · simp [Chunk.text, Chunk.chars, String.ext_iff, sprintfGo, argText]
  · intro t ht
    simp only [genOutputAssignment, lower, ht, genTemps, Fgenf, List.append_assoc,
      List.cons_append, List.nil_append, printed_append]

set_option maxRecDepth 100000 in
/-- The output `visibility = isPublic ? "yes" : "no"`: the declaration of `tmp0`, the
two-branch assignment and the export of `tmp0`. -/
theorem genOutputAssignment_export_last_witness :
    (∃ w1 g1, genOutputAssignment sampleExternals [] sampleGenerator sampleOutput
      = .ok (w1, g1)) ∧
    (match genOutputAssignment sampleExternals [] sampleGenerator sampleOutput with
      | .ok (w1, _) => Buffer.text sampleExternals w1
      | .error _ => "")
      = "var tmp0 string\nif isPublic \x7b\ntmp0 = \"yes\"\n\x7d else \x7b\ntmp0 = \"no\"\n\x7d\n"
          ++ "ctx.Export(\"visibility\", tmp0)\n" :=
  ⟨(genOutputAssignment_export_last sampleExternals [] sampleGenerator sampleOutput).2.1
      (by decide), by decide⟩

/-! ## Resources without inputs -/

/-- The list `lowerAll` returns has one entry per input. -/
theorem lowerAll_length (x : Externals) (r : Resource) (inputs : List Attribute)
    (g : generator) : (lowerAll x r g inputs).1.length = inputs.length := by
  induction inputs generalizing g with
  | nil => rfl
  | cons input rest ih => simp [lowerAll, ih]

/-- C13: for a resource without inputs `genResource` writes no temp statement, only the
construction call `<name>, err := <mod>.New<Type>(ctx, "<name>", nil)` and right after it
the failure check, and leaves the generator as it is; and whenever `genResource` returns,
the construction call ends in `nil)` if and only if the resource has no inputs. -/
theorem genResource_nil_iff_no_inputs (x : Externals) (w : Buffer) (g : generator)
    (r : Resource) :
    (r.Inputs = [] →
      genResource x w g r =
        .ok (w ++ [⟨"%s, err := %s.New%s(ctx, \"%[1]s\", ",
                    [.str r.name, .str r.decomposed.2.1, .str r.decomposed.2.2]⟩,
                   ⟨"nil)\n", []⟩] ++ failureCheck, g)) ∧
    Buffer.text x [⟨"%s, err := %s.New%s(ctx, \"%[1]s\", ",
                    [.str r.name, .str r.decomposed.2.1, .str r.decomposed.2.2]⟩,
                   ⟨"nil)\n", []⟩]
      = r.name ++ ", err := " ++ r.decomposed.2.1 ++ ".New" ++ r.decomposed.2.2
          ++ "(ctx, \"" ++ r.name ++ "\", nil)\n" ∧
    Buffer.text x failureCheck = "if err != nil \x7b\nreturn err\n\x7d\n" ∧
    (∀ w1 g1, genResource x w g r = .ok (w1, g1) →
      ((∃ pre, w1 = pre ++ [⟨"nil)\n", []⟩] ++ failureCheck) ↔ r.Inputs = [])) := by
  refine ⟨?_, ?_, rfl, ?_⟩
  · intro hi
    rw [genResource_eq, hi]
    simp [lowerAll, genTemps, constructionCall, printed, Buffer.diagnostics, Chunk.diagnostics,
      diagnosticsGo, argDiagnostics, failureCheck]
  · simp [Buffer.text, Chunk.chars, String.ext_iff, sprintfGo, argText]
  · intro w1 g1 h
    rw [genResource_eq] at h
    cases ht : genTemps x w ((lowerAll x r g r.Inputs).1.flatMap (fun l => l.2)) with
    | error e => simp [ht] at h
    | ok wa =>
      simp only [ht, Except.ok.injEq, Prod.mk.injEq] at h
      have hlen := lowerAll_length x r r.Inputs g
      constructor
      · rintro ⟨pre, hpre⟩
        cases hf : (lowerAll x r g r.Inputs).1.map (fun l => l.1) with
        | nil =>
          have h0 : (lowerAll x r g r.Inputs).1.length = 0 := by
            have := congrArg List.length hf
            simpa using this
          exact List.length_eq_zero.mp (by omega)
        | cons a rest =>
          exfalso
          rw [hf] at h
          have h1 := h.1
          rw [hpre] at h1
          simp only [constructionCall, List.isEmpty_cons, Bool.false_eq_true, if_false] at h1
          have h2 : (wa ++ (⟨"%s, err := %s.New%s(ctx, \"%[1]s\", ",
                [.str r.name, .str r.decomposed.2.1, .str r.decomposed.2.2]⟩ ::
              ⟨"&%s.%sArgs\x7b\n", [.str r.decomposed.2.1, .str r.decomposed.2.2]⟩ ::
              (a :: rest).flatMap (fun a : Attribute =>
                ([⟨"%s: ", [.str (Title x a.Name)]⟩, ⟨"%.v,\n", [.expr a.Value]⟩] : Buffer))))
              ++ [⟨"\x7d)\n", []⟩] ++ failureCheck
              = pre ++ [⟨"nil)\n", []⟩] ++ failureCheck := by
            rw [← h1]
            simp only [List.append_assoc, List.cons_append, List.nil_append]
          have h3 := List.append_cancel_right h2
          have h4 := (List.append_inj' h3 rfl).2
          simp only [List.cons.injEq, Chunk.mk.injEq, and_true] at h4
          exact absurd h4 (by decide)
      · intro hi
        rw [hi] at h
        refine ⟨wa ++ [⟨"%s, err := %s.New%s(ctx, \"%[1]s\", ",
          [.str r.name, .str r.decomposed.2.1, .str r.decomposed.2.2]⟩], ?_⟩
        rw [← h.1]
        simp [lowerAll, constructionCall]

/-- The bucket, which has no inputs, and the site, which has three. -/
theorem genResource_nil_iff_no_inputs_witness :
    genResource sampleExternals [] sampleGenerator sampleBucket =
      .ok ([] ++ [⟨"%s, err := %s.New%s(ctx, \"%[1]s\", ",
                    [.str sampleBucket.name, .str sampleBucket.decomposed.2.1,
                     .str sampleBucket.decomposed.2.2]⟩,
                   ⟨"nil)\n", []⟩] ++ failureCheck, sampleGenerator) ∧
    ((∃ pre, sampleSiteOut = pre ++ [⟨"nil)\n", []⟩] ++ failureCheck) ↔ sampleSite.Inputs = []) :=
  ⟨(genResource_nil_iff_no_inputs sampleExternals [] sampleGenerator sampleBucket).1 rfl,
   (genResource_nil_iff_no_inputs sampleExternals [] sampleGenerator sampleSite).2.2.2
      sampleSiteOut ⟨[], ⟨1⟩, ⟨1⟩⟩ rfl⟩

/-! ## The assembled program -/

/-- The writer `genNode` starts from is only a prefix of its result. -/
theorem genNode_from_empty (x : Externals) (w : Buffer) (g : generator) (n : Node) :
    genNode x w g n =
      match genNode x [] g n with
      | .error e => .error e
      | .ok (out, g1) => .ok (w ++ out, g1) := by
  cases n with
  | resource r =>
    simp only [genNode, genResource_eq]
    rw [genTemps_from_empty x _ w]
    cases genTemps x [] ((lowerAll x r g r.Inputs).1.flatMap (fun l => l.2)) with
    | error e => rfl
    | ok out => simp [List.append_assoc]
  | outputVariable v =>
    simp only [genNode, genOutputAssignment, lower]
    rw [genTemps_from_empty x _ w]
    cases genTemps x [] (x.lowerExpression g v.Value v.typ false).2.1 with
    | error e => rfl
    | ok out => simp [Fgenf, List.append_assoc, printed_append]
  | localVariable v =>
    simp only [genNode, genLocalVariable, lower]
    rw [genTemps_from_empty x _ w]
    cases genTemps x [] (x.lowerExpression g v.Value v.typ false).2.1 with
    | error e => rfl
    | ok out =>
      simp only
      cases (x.lowerExpression g v.Value v.typ false).1 with
      | functionCall name args =>
        by_cases hn : name = Invoke <;> simp [hn, Fgenf, List.append_assoc, printed_append]
      | literal _ | scopeTraversal _ | objectCons _ | conditional _ _ _ =>
        simp [Fgenf, List.append_assoc, printed_append]
  | configVariable name => simp [genNode]

/-- When the loop over the nodes returns, it has appended one group per node, in node
order; the group of a node is what `genNode` writes for it. -/
theorem genNodes_groups (x : Externals) (nodes : List Node) :
    ∀ (w : Buffer) (g : generator) (w1 : Buffer) (g1 : generator),
      genNodes x w g nodes = .ok (w1, g1) →
      ∃ groups : List Buffer,
        List.Forall₂ (fun n grp => ∃ g0 g2, genNode x [] g0 n = .ok (grp, g2)) nodes groups ∧
        w1 = w ++ groups.flatten := by
  induction nodes with
  | nil =>
    intro w g w1 g1 h
    simp only [genNodes, Except.ok.injEq, Prod.mk.injEq] at h
    exact ⟨[], List.Forall₂.nil, by simp [h.1]⟩
  | cons n rest ih =>
    intro w g w1 g1 h
    simp only [genNodes] at h
    rw [genNode_from_empty] at h
    cases hn : genNode x [] g n with
    | error e => simp [hn] at h
    | ok r =>
      obtain ⟨out, g2⟩ := r
      simp only [hn] at h
      obtain ⟨groups, hf, hw⟩ := ih _ _ _ _ h
      exact ⟨out :: groups, List.Forall₂.cons ⟨g, g2, hn⟩ hf, by simp [hw, List.append_assoc]⟩

/-- The three calls of `genPostamble`. -/
theorem genPostamble_eq (w : Buffer) (nodes : List Node) :
    genPostamble w nodes
      = w ++ [⟨"%s", [.str "return nil\n"]⟩, ⟨"\x7d)\n", []⟩, ⟨"\x7d\n", []⟩] := by
  simp [genPostamble, Fprint, Fgenf]

/-- The function `GenerateProgram` hands the text of `assemble` to the formatter. -/
theorem GenerateProgram_eq (x : Externals) (program : Program) :
    GenerateProgram x program =
      match assemble x program with
      | .error e => .error e
      | .ok (index, g) =>
        match x.gofmtSource (index.text x) with
        | none => .error (.errorf (Sprintf "invalid Go source code:\n\n%s" [.str (index.text x)]))
        | some formattedSource => .ok ([("main.go", formattedSource)], g.diagnostics) := by
  unfold GenerateProgram assemble
  simp only
  cases genPreamble x [] program with
  | error e => rfl
  | ok index =>
    simp only
    cases genNodes x index ⟨[], ⟨0⟩, ⟨0⟩⟩ (x.Linearize program) with
    | error e => rfl
    | ok r => rfl

/-- C14: the text `GenerateProgram` hands to the formatter is the preamble, then one
statement group per node of the linearised list, in the order of that list, each group
being what `genNode` writes for its node, then the postamble; and the postamble is
`return nil`, `})` and `}` whatever the nodes are. -/
theorem generateProgram_assembles_in_order (x : Externals) (program : Program) :
    (GenerateProgram x program =
      match assemble x program with
      | .error e => .error e
      | .ok (index, g) =>
        match x.gofmtSource (index.text x) with
        | none => .error (.errorf (Sprintf "invalid Go source code:\n\n%s" [.str (index.text x)]))
        | some formattedSource => .ok ([("main.go", formattedSource)], g.diagnostics)) ∧
    (∀ index g, assemble x program = .ok (index, g) →
      ∃ (pre : Buffer) (groups : List Buffer),
        genPreamble x [] program = .ok pre ∧
        List.Forall₂ (fun n grp => ∃ g0 g2, genNode x [] g0 n = .ok (grp, g2))
          (x.Linearize program) groups ∧
        index = pre ++ groups.flatten ++ genPostamble [] (x.Linearize program) ∧
        index.text x = Buffer.text x pre ++ Buffer.text x groups.flatten
          ++ "return nil\n\x7d)\n\x7d\n") ∧
    (∀ nodes : List Node, Buffer.text x (genPostamble [] nodes) = "return nil\n\x7d)\n\x7d\n") := by
  refine ⟨GenerateProgram_eq x program, ?_, fun nodes => rfl⟩
  intro index g h
  unfold assemble at h
  simp only at h
  cases hp : genPreamble x [] program with
  | error e => simp [hp] at h
  | ok pre =>
    simp only [hp] at h
    cases hn : genNodes x pre ⟨[], ⟨0⟩, ⟨0⟩⟩ (x.Linearize program) with
    | error e => simp [hn] at h
    | ok r =>
      obtain ⟨w1, g1⟩ := r
      simp only [hn, Except.ok.injEq, Prod.mk.injEq] at h
      obtain ⟨groups, hf, hw⟩ := genNodes_groups x _ _ _ _ _ hn
      refine ⟨pre, groups, rfl, hf, ?_, ?_⟩
      · rw [← h.1, hw, genPostamble_eq, genPostamble_eq]
        simp
      · rw [← h.1, hw, genPostamble_eq, Buffer.text_append, Buffer.text_append]
        rfl

set_option maxRecDepth 100000 in
/-- The sample program: its text before formatting is the preamble, four groups and the
postamble. -/
theorem generateProgram_assembles_in_order_witness :
    ∃ (pre : Buffer) (groups : List Buffer),
      genPreamble sampleExternals [] sampleProgram = .ok pre ∧
      List.Forall₂ (fun n grp => ∃ g0 g2, genNode sampleExternals [] g0 n = .ok (grp, g2))
        (sampleExternals.Linearize sampleProgram) groups ∧
      sampleIndex = pre ++ groups.flatten ++ genPostamble [] (sampleExternals.Linearize sampleProgram) ∧
      sampleIndex.text sampleExternals = Buffer.text sampleExternals pre
        ++ Buffer.text sampleExternals groups.flatten ++ "return nil\n\x7d)\n\x7d\n" :=
  (generateProgram_assembles_in_order sampleExternals sampleProgram).2.1 sampleIndex
    ⟨[], ⟨1⟩, ⟨1⟩⟩ rfl

/-- C16: once the program text is assembled, `GenerateProgram` panics with the message
`invalid Go source code:` followed by the whole unformatted text when the formatter rejects
it, and returns the formatted source under the one name `main.go`, with the diagnostics
accumulated in the generator, when the formatter accepts it. -/
theorem generateProgram_formatting (x : Externals) (program : Program) (index : Buffer)
    (g : generator) (h : assemble x program = .ok (index, g)) :
    (x.gofmtSource (index.text x) = none →
      GenerateProgram x program
        = .error (.errorf ("invalid Go source code:\n\n" ++ index.text x))) ∧
    (∀ formattedSource, x.gofmtSource (index.text x) = some formattedSource →
      GenerateProgram x program = .ok ([("main.go", formattedSource)], g.diagnostics)) := by
  have hs : Sprintf "invalid Go source code:\n\n%s" [.str (index.text x)]
      = "invalid Go source code:\n\n" ++ index.text x := by
    simp [Sprintf, String.ext_iff, sprintfGo, argText]
  constructor
  · intro hf
    rw [GenerateProgram_eq, h]
    simp only [hf, hs]
  · intro f hf
    rw [GenerateProgram_eq, h]
    simp only [hf]

set_option maxRecDepth 100000 in
/-- The small program under a formatter that rejects everything and under one that
accepts everything. -/
theorem generateProgram_formatting_witness :
    GenerateProgram sampleExternalsReject sampleSmallProgram
      = .error (.errorf ("invalid Go source code:\n\n" ++ sampleSmallIndex.text sampleExternalsReject)) ∧
    GenerateProgram sampleExternals sampleSmallProgram
      = .ok ([("main.go", sampleSmallIndex.text sampleExternals)], []) :=
  ⟨(generateProgram_formatting sampleExternalsReject sampleSmallProgram sampleSmallIndex
      sampleGenerator rfl).1 rfl,
   (generateProgram_formatting sampleExternals sampleSmallProgram sampleSmallIndex
      sampleGenerator rfl).2 _ rfl⟩

/-! ## Diagnostics -/

/-- The lowering of the inputs appends diagnostics to the generator, among them those of
the input-type traversal, in input order. -/
theorem lowerAll_diagnostics (x : Externals) (r : Resource) (inputs : List Attribute)
    (g : generator) :
    ∃ added, (lowerAll x r g inputs).2.diagnostics = g.diagnostics ++ added ∧
      List.Sublist (inputs.flatMap (fun input => (x.traverse r.InputType input.Name).2))
        added := by
  induction inputs generalizing g with
  | nil => exact ⟨[], by simp [lowerAll], by simp⟩
  | cons input rest ih =>
    obtain ⟨added, he, hs⟩ := ih (printed x
      (lower x ⟨g.diagnostics ++ (x.traverse r.InputType input.Name).2, g.jsonTempSpiller,
        g.ternaryTempSpiller⟩ input.Value (x.traverse r.InputType input.Name).1 true).2.2 []
      ((lower x ⟨g.diagnostics ++ (x.traverse r.InputType input.Name).2, g.jsonTempSpiller,
        g.ternaryTempSpiller⟩ input.Value (x.traverse r.InputType input.Name).1 true).2.1.flatMap
          (tempGroup x)))
    refine ⟨(x.traverse r.InputType input.Name).2 ++ (Buffer.diagnostics x
      ((lower x ⟨g.diagnostics ++ (x.traverse r.InputType input.Name).2, g.jsonTempSpiller,
        g.ternaryTempSpiller⟩ input.Value (x.traverse r.InputType input.Name).1 true).2.1.flatMap
          (tempGroup x)) ++ added), ?_, ?_⟩
    · simp only [lowerAll]
      rw [he]
      simp [printed, lower, List.append_assoc]
    · rw [List.flatMap_cons]
      exact List.Sublist.append (List.Sublist.refl _)
        (hs.trans (List.sublist_append_right _ _))

/-- One node appends diagnostics to the generator, among them those of the input-type
traversal of its inputs. -/
theorem genNode_diagnostics (x : Externals) (w : Buffer) (g : generator) (n : Node)
    (w1 : Buffer) (g1 : generator) (h : genNode x w g n = .ok (w1, g1)) :
    ∃ added, g1.diagnostics = g.diagnostics ++ added ∧
      List.Sublist (nodeDiagnostics x n) added := by
  cases n with
  | resource r =>
    simp only [genNode, genResource_eq] at h
    cases ht : genTemps x w ((lowerAll x r g r.Inputs).1.flatMap (fun l => l.2)) with
    | error e => simp [ht] at h
    | ok wa =>
      simp only [ht, Except.ok.injEq, Prod.mk.injEq] at h
      obtain ⟨added, he, hs⟩ := lowerAll_diagnostics x r r.Inputs g
      refine ⟨added ++ Buffer.diagnostics x
        (constructionCall x r ((lowerAll x r g r.Inputs).1.map (fun l => l.1)) ++ failureCheck),
        ?_, hs.trans (List.sublist_append_left _ _)⟩
      rw [← h.2]
      simp [printed, he, List.append_assoc]
  | outputVariable v =>
    simp only [genNode, genOutputAssignment, lower] at h
    cases ht : genTemps x w (x.lowerExpression g v.Value v.typ false).2.1 with
    | error e => simp [ht] at h
    | ok wa =>
      simp only [ht, Except.ok.injEq, Prod.mk.injEq] at h
      exact ⟨_, by rw [← h.2]; rfl, by simp [nodeDiagnostics]⟩
  | localVariable v =>
    simp only [genNode, genLocalVariable, lower] at h
    cases ht : genTemps x w (x.lowerExpression g v.Value v.typ false).2.1 with
    | error e => simp [ht] at h
    | ok wa =>
      simp only [ht] at h
      cases he : (x.lowerExpression g v.Value v.typ false).1 with
      | functionCall name args =>
        simp only [he] at h
        by_cases hn : name = Invoke
        · simp only [hn, if_true, Except.ok.injEq, Prod.mk.injEq] at h
          exact ⟨_, by rw [← h.2]; rfl, by simp [nodeDiagnostics]⟩
        · simp only [hn, if_false, Except.ok.injEq, Prod.mk.injEq] at h
          exact ⟨_, by rw [← h.2]; rfl, by simp [nodeDiagnostics]⟩
      | literal _ | scopeTraversal _ | objectCons _ | conditional _ _ _ =>
        simp only [he, Except.ok.injEq, Prod.mk.injEq] at h
        exact ⟨_, by rw [← h.2]; rfl, by simp [nodeDiagnostics]⟩
  | configVariable name =>
    simp only [genNode, Except.ok.injEq, Prod.mk.injEq] at h
    exact ⟨[], by simp [h.2], by simp [nodeDiagnostics]⟩

/-- The loop over the nodes appends diagnostics to the generator, among them those of the
input-type traversal, node by node. -/
theorem genNodes_diagnostics (x : Externals) (nodes : List Node) :
    ∀ (w : Buffer) (g : generator) (w1 : Buffer) (g1 : generator),
      genNodes x w g nodes = .ok (w1, g1) →
      ∃ added, g1.diagnostics = g.diagnostics ++ added ∧
        List.Sublist (nodes.flatMap (nodeDiagnostics x)) added := by
  induction nodes with
  | nil =>
    intro w g w1 g1 h
    simp only [genNodes, Except.ok.injEq, Prod.mk.injEq] at h
    exact ⟨[], by simp [h.2], by simp⟩
  | cons n rest ih =>
    intro w g w1 g1 h
    simp only [genNodes] at h
    cases hn : genNode x w g n with
    | error e => simp [hn] at h
    | ok r =>
      obtain ⟨w2, g2⟩ := r
      simp only [hn] at h
      obtain ⟨a1, he1, hs1⟩ := genNode_diagnostics x w g n w2 g2 hn
      obtain ⟨a2, he2, hs2⟩ := ih _ _ _ _ h
      refine ⟨a1 ++ a2, by rw [he2, he1, List.append_assoc], ?_⟩
      rw [List.flatMap_cons]
      exact List.Sublist.append hs1 hs2

/-- A node whose `jsonTemp`s all have a first argument is emitted. -/
theorem genNode_returns (x : Externals) (w : Buffer) (g : generator) (n : Node)
    (hwf : ∀ t ∈ nodeTemps x g n, t.hasFirstArg = true) :
    ∃ w1 g1, genNode x w g n = .ok (w1, g1) := by
  cases n with
  | resource r =>
    simp only [nodeTemps] at hwf
    simp only [genNode, genResource_eq]
    rw [genTemps_total x _ w hwf]
    exact ⟨_, _, rfl⟩
  | outputVariable v =>
    simp only [nodeTemps] at hwf
    simp only [genNode, genOutputAssignment, lower]
    rw [genTemps_total x _ w hwf]
    exact ⟨_, _, rfl⟩
  | localVariable v =>
    simp only [nodeTemps] at hwf
    simp only [genNode, genLocalVariable, lower]
    rw [genTemps_total x _ w hwf]
    simp only
    split
    · split <;> exact ⟨_, _, rfl⟩
    · exact ⟨_, _, rfl⟩
  | configVariable name => exact ⟨_, _, rfl⟩

/-- The loop over the nodes returns when every node can be emitted. -/
theorem genNodes_returns (x : Externals) (nodes : List Node)
    (hwf : ∀ g, ∀ n ∈ nodes, ∀ t ∈ nodeTemps x g n, t.hasFirstArg = true) :
    ∀ (w : Buffer) (g : generator), ∃ w1 g1, genNodes x w g nodes = .ok (w1, g1) := by
  induction nodes with
  | nil => intro w g; exact ⟨_, _, rfl⟩
  | cons n rest ih =>
    intro w g
    obtain ⟨w2, g2, hn⟩ := genNode_returns x w g n (hwf g n (by simp))
    simp only [genNodes, hn]
    exact ih (fun g n hn => hwf g n (by simp [hn])) w2 g2

/-- When the loop of `collectImports` returns, the expression traversal reported no
diagnostics for any node. -/
theorem collectLoop_no_diagnostics (x : Externals) (program : Program) (nodes : List Node) :
    ∀ (std0 pul0 std pul : StringSet),
      collectLoop x program std0 pul0 nodes = .ok (std, pul) →
      ∀ n ∈ nodes, (x.visitExpressions n).2 = [] := by
  induction nodes with
  | nil => intro _ _ _ _ _ n hn; simp at hn
  | cons n rest ih =>
    intro std0 pul0 std pul h m hm
    simp only [collectLoop] at h
    cases hc : collectResource program pul0 n with
    | error e => simp [hc] at h
    | ok pul1 =>
      simp only [hc] at h
      by_cases hd : (x.visitExpressions n).2.length = 0
      · simp only [hd, if_true] at h
        simp only [List.mem_cons] at hm
        cases hm with
        | inl he => rw [he]; exact List.length_eq_zero.mp hd
        | inr hr => exact ih _ _ _ _ h m hr
      · simp [hd] at h

/-- The preamble returns exactly when import collection does. -/
theorem genPreamble_ok_iff (x : Externals) (w : Buffer) (program : Program) :
    (∃ pre, genPreamble x w program = .ok pre) ↔
      ∃ std pul, collectImports x program = .ok (std, pul) := by
  unfold genPreamble
  cases hc : collectImports x program with
  | error e => simp
  | ok r => obtain ⟨std, pul⟩ := r; simp

set_option maxRecDepth 100000 in
/-- C15 (fails as stated): the expression traversal of import collection reports a
diagnostic for the first node of the sample program, and `GenerateProgram` panics on the
failed assertion instead of returning it. -/
theorem generateProgram_visit_diagnostics_abort :
    (sampleExternalsVisit.visitExpressions (.resource sampleBucket)).2
        = ["unsupported expression"] ∧
      GenerateProgram sampleExternalsVisit sampleProgram = .error .assertFailed :=
  ⟨rfl, rfl⟩

/-- C15 (amended): the diagnostics of the input-type traversal in resource emission do not
halt translation and are accumulated in the list `GenerateProgram` returns: it returns
whenever import collection succeeds, every `jsonTemp` has a first argument and the
formatter accepts the assembled text, and the returned list holds those diagnostics, node
by node and input by input.  Diagnostics of the expression traversal in import collection
do halt it: when `GenerateProgram` returns, that traversal reported none for any node. -/
theorem generateProgram_diagnostics (x : Externals) (program : Program) :
    (∀ files diags, GenerateProgram x program = .ok (files, diags) →
      List.Sublist ((x.Linearize program).flatMap (nodeDiagnostics x)) diags ∧
      ∀ n ∈ program.Nodes, (x.visitExpressions n).2 = []) ∧
    ((∃ std pul, collectImports x program = .ok (std, pul)) →
     (∀ g, ∀ n ∈ x.Linearize program, ∀ t ∈ nodeTemps x g n, t.hasFirstArg = true) →
     (∀ index g, assemble x program = .ok (index, g) → x.gofmtSource (index.text x) ≠ none) →
      ∃ files diags, GenerateProgram x program = .ok (files, diags) ∧
        List.Sublist ((x.Linearize program).flatMap (nodeDiagnostics x)) diags) := by
  have key : ∀ files diags, GenerateProgram x program = .ok (files, diags) →
      List.Sublist ((x.Linearize program).flatMap (nodeDiagnostics x)) diags ∧
      ∀ n ∈ program.Nodes, (x.visitExpressions n).2 = [] := by
    intro files diags h
    unfold GenerateProgram at h
    simp only at h
    cases hp : genPreamble x [] program with
    | error e => simp [hp] at h
    | ok pre =>
      simp only [hp] at h
      cases hn : genNodes x pre ⟨[], ⟨0⟩, ⟨0⟩⟩ (x.Linearize program) with
      | error e => simp [hn] at h
      | ok r =>
        obtain ⟨w1, g1⟩ := r
        simp only [hn] at h
        cases hf : x.gofmtSource (Buffer.text x (genPostamble w1 (x.Linearize program))) with
        | none => simp [hf] at h
        | some f =>
          simp only [hf, Except.ok.injEq, Prod.mk.injEq] at h
          constructor
          · obtain ⟨added, he, hs⟩ := genNodes_diagnostics x _ _ _ _ _ hn
            rw [← h.2, he]
            simpa using hs
          · obtain ⟨std, pul, hc⟩ := (genPreamble_ok_iff x [] program).mp ⟨pre, hp⟩
            exact collectLoop_no_diagnostics x program program.Nodes [] [] std pul hc
  refine ⟨key, ?_⟩
  intro hc hwf hfmt
  obtain ⟨pre, hp⟩ := (genPreamble_ok_iff x [] program).mpr hc
  obtain ⟨w1, g1, hn⟩ := genNodes_returns x (x.Linearize program) hwf pre ⟨[], ⟨0⟩, ⟨0⟩⟩
  have ha : assemble x program = .ok (genPostamble w1 (x.Linearize program), g1) := by
    unfold assemble
    simp only [hp, hn]
  cases hf : x.gofmtSource (Buffer.text x (genPostamble w1 (x.Linearize program))) with
  | none => exact absurd hf (hfmt _ _ ha)
  | some f =>
    have hg : GenerateProgram x program = .ok ([("main.go", f)], g1.diagnostics) := by
      rw [GenerateProgram_eq, ha]
      simp only [hf]
    exact ⟨_, _, hg, (key _ _ hg).1⟩

set_option maxRecDepth 100000 in
/-- The sample program under an input-type traversal that reports one diagnostic per
input and a printer that reports one per object: translation completes, and the returned
list holds the three diagnostics of the site's inputs around that of the printer. -/
theorem generateProgram_diagnostics_witness :
    (∃ files diags, GenerateProgram sampleExternalsTraverse sampleProgram = .ok (files, diags) ∧
      List.Sublist ((sampleExternalsTraverse.Linearize sampleProgram).flatMap
        (nodeDiagnostics sampleExternalsTraverse)) diags) ∧
    (sampleExternalsTraverse.Linearize sampleProgram).flatMap
        (nodeDiagnostics sampleExternalsTraverse)
      = ["unknown input policy", "unknown input acl", "unknown input bucket"] ∧
    (match GenerateProgram sampleExternalsTraverse sampleProgram with
      | .ok (_, diags) => diags
      | .error _ => [])
      = ["unknown input policy", "not yet implemented: object", "unknown input acl",
          "unknown input bucket"] :=
  ⟨(generateProgram_diagnostics sampleExternalsTraverse sampleProgram).2
    ⟨_, _, rfl⟩
    (by
      intro g n hn t ht
      simp only [sampleExternalsTraverse, sampleProgram, List.mem_cons, List.mem_singleton,
        List.not_mem_nil, or_false] at hn
      rcases hn with hn | hn | hn | hn <;> subst hn <;>
        simp [nodeTemps, lowerAll, lower, sampleExternalsTraverse, sampleLower, sampleSite,
          sampleBucket, sampleAssetLocal] at ht
      rcases ht with ht | ht <;> subst ht <;> rfl)
    (fun _ _ _ h => Option.noConfusion h),
   by decide, by decide⟩

/-! ## Unhandled nodes and temp totality -/

/-- C17: for a node that is neither a resource, nor an output variable, nor a local
variable, `genNode` returns the writer and the generator it was given: no statement is
written, and the diagnostics and both temp-name allocators are unchanged. -/
theorem genNode_other_kind_unchanged (x : Externals) (w : Buffer) (g : generator) (n : Node)
    (hr : ∀ r, n ≠ .resource r) (ho : ∀ v, n ≠ .outputVariable v)
    (hl : ∀ v, n ≠ .localVariable v) :
    genNode x w g n = .ok (w, g) := by
  cases n with
  | resource r => exact absurd rfl (hr r)
  | outputVariable v => exact absurd rfl (ho v)
  | localVariable v => exact absurd rfl (hl v)
  | configVariable name => rfl

/-- A config variable leaves the writer and the generator as they are. -/
theorem genNode_other_kind_witness :
    genNode sampleExternals sampleSiteOut ⟨["earlier"], ⟨3⟩, ⟨5⟩⟩ (.configVariable "region")
      = .ok (sampleSiteOut, ⟨["earlier"], ⟨3⟩, ⟨5⟩⟩) :=
  genNode_other_kind_unchanged sampleExternals sampleSiteOut ⟨["earlier"], ⟨3⟩, ⟨5⟩⟩
    (.configVariable "region") (fun _ h => Node.noConfusion h) (fun _ h => Node.noConfusion h)
    (fun _ h => Node.noConfusion h)

/-- A list with a `jsonTemp` without arguments makes `genTemps` panic. -/
theorem genTemps_fails (x : Externals) (ts : List Temp) (w : Buffer)
    (h : ∃ t ∈ ts, t.hasFirstArg = false) :
    genTemps x w ts = .error .indexOutOfRange := by
  induction ts generalizing w with
  | nil => obtain ⟨t, ht, _⟩ := h; simp at ht
  | cons t rest ih =>
    by_cases hf : t.hasFirstArg = true
    · have hrest : ∃ t ∈ rest, t.hasFirstArg = false := by
        obtain ⟨t1, ht1, hb⟩ := h
        simp only [List.mem_cons] at ht1
        cases ht1 with
        | inl he => rw [he, hf] at hb; exact absurd hb (by decide)
        | inr hm => exact ⟨t1, hm, hb⟩
      rw [genTemps_cons, genTemps_from_empty x [t], genTemps_single x t hf]
      exact ih _ hrest
    · cases t with
      | ternary t => exact absurd rfl hf
      | other d => exact absurd rfl hf
      | json t =>
        cases ha : t.Value.Args with
        | nil => simp [genTemps, ha]
        | cons a as => simp [Temp.hasFirstArg, ha] at hf

/-- C18: `genTemps` returns on every list in which each `jsonTemp` has a first argument,
it panics (index out of range) on every list with a `jsonTemp` whose call has no argument,
and a descriptor that is neither a `ternaryTemp` nor a `jsonTemp` writes nothing. -/
theorem genTemps_total_iff_first_args (x : Externals) (w : Buffer) (ts : List Temp) :
    ((∀ t ∈ ts, t.hasFirstArg = true) →
      genTemps x w ts = .ok (w ++ ts.flatMap (tempGroup x))) ∧
    ((∃ t ∈ ts, t.hasFirstArg = false) → genTemps x w ts = .error .indexOutOfRange) ∧
    (∀ (t : jsonTemp) (rest : List Temp), t.Value.Args = [] →
      genTemps x w (.json t :: rest) = .error .indexOutOfRange) ∧
    (∀ (d : String) (rest : List Temp),
      genTemps x w (.other d :: rest) = genTemps x w rest ∧ tempGroup x (.other d) = []) := by
  refine ⟨genTemps_total x ts w, genTemps_fails x ts w, ?_, fun d rest => ⟨rfl, rfl⟩⟩
  intro t rest ha
  simp [genTemps, ha]

/-- The list `[tmp0, other, json0]` is emitted, and the list `[json without argument]`
panics. -/
theorem genTemps_total_iff_first_args_witness :
    genTemps sampleExternals []
        [.ternary sampleTernaryTemp, .other "comment", .json sampleJsonTemp]
      = .ok ([] ++ [Temp.ternary sampleTernaryTemp, .other "comment", .json sampleJsonTemp].flatMap
          (tempGroup sampleExternals)) ∧
    genTemps sampleExternals [] [.ternary sampleTernaryTemp, .json ⟨"json1", ⟨"toJSON", []⟩⟩]
      = .error .indexOutOfRange :=
  ⟨(genTemps_total_iff_first_args sampleExternals []
      [.ternary sampleTernaryTemp, .other "comment", .json sampleJsonTemp]).1 (by decide),
   (genTemps_total_iff_first_args sampleExternals []
      [.ternary sampleTernaryTemp, .json ⟨"json1", ⟨"toJSON", []⟩⟩]).2.1
      ⟨.json ⟨"json1", ⟨"toJSON", []⟩⟩, by simp, rfl⟩⟩

end Gen
